import Mathlib

/-!
Verification development for the `heat_map` repository.

The repository has two source files:
* `api/main.py` — the ingest/storage engine: payload validation, schema-drift
  detection with file rotation (`rotate_if_mismatch`), append-only writing of a
  clean and a raw CSV series per device, and read-side CSV endpoints.
* `dashboard/app.py` — the read-side reconstructor: time-axis selection,
  device-reset trimming, time windowing, column renaming and display rounding.

The shallow embedding below translates those parts of the source that the
claims depend on.  Numbers (JSON numbers / Python floats) are modelled as
exact rationals `ℚ`; CSV files are modelled as lists of rows of cells, with
the textual comma count of the serialized first line (what
`rotate_if_mismatch` inspects through `f.readline()`) computed by `lineCols`.
The filesystem is an association list from path strings to files.
-/

/-! ## CSV cells, rows, files and the filesystem -/

/-- One CSV field as written by `csv.writer`: either a numeric value
(`ts_s`, `ts_ms` or a sensor reading; Python `None` serializes as the empty
field) or a text field (header names).  Numeric reprs never contain commas,
quotes or newlines, which the embedding records by giving `num` cells comma
count 0 in `cellCommas`. -/
inductive Cell where
  | num (v : Option ℚ)
  | str (s : String)
deriving DecidableEq, Repr

abbrev CsvRow := List Cell

/-- A CSV file: the list of its rows (first row = header, when present). -/
abbrev File := List CsvRow

/-- The data directory: an association list from paths to files. -/
abbrev FS := List (String × File)

def fsGet (fs : FS) (path : String) : Option File :=
  (fs.find? (fun e => e.1 == path)).map (fun e => e.2)

def fsRemove (fs : FS) (path : String) : FS :=
  fs.filter (fun e => e.1 != path)

def fsSet (fs : FS) (path : String) (f : File) : FS :=
  (path, f) :: fsRemove fs path

/-- `os.replace src dst`: move the file at `src` to `dst`, overwriting `dst`.
(In the source it is only called when `src` exists.) -/
def fsRename (fs : FS) (src dst : String) : FS :=
  match fsGet fs src with
  | none => fs
  | some f => fsSet (fsRemove fs src) dst f

/-- Append one row to the file at `path` (`open(path, "a")` creates the file
when absent). -/
def fsAppend (fs : FS) (path : String) (row : CsvRow) : FS :=
  match fsGet fs path with
  | some f => fsSet fs path (f ++ [row])
  | none => fsSet fs path [row]

/-- Number of commas the CSV serialization of this cell contributes to its
line.  `csv.writer` quotes a text field containing a comma, but the commas
inside the quotes still appear on the line, so a `str` cell always
contributes the commas of its text; numeric reprs contain no comma. -/
def cellCommas : Cell → ℕ
  | .num _ => 0
  | .str s => s.toList.count ','

/-- Whether a character forces `csv.writer` (QUOTE_MINIMAL) to quote the
field. -/
def quoteChar (c : Char) : Bool :=
  c == ',' || c == '"' || c == '\n' || c == '\r'

/-- Whether the serialization of this single cell `strip()`s to the empty
string, i.e. consists of whitespace only (a quoted cell keeps its quote
characters, so it never does). -/
def cellBlank : Cell → Bool
  | .num v => v.isNone
  | .str s => !(s.toList.any quoteChar) && (s.toList.all Char.isWhitespace)

/-- Embedding of `actual = 0 if not header else header.count(",") + 1`
applied to the serialized first row (`header = f.readline().strip()`):
`0` for a line that strips to empty, otherwise one plus the number of commas
on the line (separators plus commas inside text fields).  Faithful whenever
no cell of the row contains a newline character, which holds for every row
the API writes from newline-free sensor names. -/
def lineCols (row : CsvRow) : ℕ :=
  match row with
  | [] => 0
  | [c] => if cellBlank c then 0 else cellCommas c + 1
  | _ => ((row.map cellCommas).sum + (row.length - 1)) + 1

/-! ## Python `str.replace` (used by `rotate_if_mismatch` for the legacy
name): replaces every non-overlapping occurrence, scanning left to right. -/

def replChars (p : Char) (ps rep : List Char) : ℕ → List Char → List Char
  | _, [] => []
  | 0, l => l
  | fuel + 1, c :: cs =>
    if (p :: ps).isPrefixOf (c :: cs) then rep ++ replChars p ps rep fuel (cs.drop ps.length)
    else c :: replChars p ps rep fuel cs

/-- Python `s.replace(pat, rep)` for a nonempty pattern.  The fuel
`s.length` bounds the number of scanning steps (each step consumes at
least one character), so it never runs out. -/
def pyReplace (s pat rep : String) : String :=
  match pat.toList with
  | [] => s
  | p :: ps => ⟨replChars p ps rep.toList s.toList.length s.toList⟩

/-- The legacy name used by `rotate_if_mismatch`:
`path.replace(".csv", "_legacy.csv")`. -/
def legacyOf (path : String) : String := pyReplace path ".csv" "_legacy.csv"

/-- Decimal digits of a natural number, as written by a Python f-string
(the fuel `n + 1` exceeds the number of digits). -/
def decDigits : ℕ → ℕ → List Char
  | 0, n => [Char.ofNat (48 + n % 10)]
  | fuel + 1, n =>
    if n < 10 then [Char.ofNat (48 + n)]
    else decDigits fuel (n / 10) ++ [Char.ofNat (48 + n % 10)]

def decRepr (n : ℕ) : String := ⟨decDigits n n⟩

/-! ## `api/main.py` -/

/-- `DATA_DIR` (its default value; the claims do not depend on it). -/
def DATA_DIR : String := "data"

/-- `fpath(device, kind)` with `kind` one of `"clean"`, `"raw"`, `"meta"`. -/
def fpath (device kind : String) : String :=
  if kind == "meta" then DATA_DIR ++ "/" ++ device ++ "_meta.json"
  else DATA_DIR ++ "/" ++ device ++ (if kind == "clean" then "" else "_raw") ++ ".csv"

/-- `rotate_if_mismatch(path, expected_cols)`: if the file exists and the
column count of its first line differs from `expected_cols`, rename it to
`path.replace(".csv", "_legacy.csv")` (note: Python replaces every
occurrence of `".csv"`, not only the suffix). -/
def rotate_if_mismatch (fs : FS) (path : String) (expected_cols : ℕ) : FS :=
  match fsGet fs path with
  | none => fs
  | some f =>
    let actual := lineCols (f.headD [])
    if actual ≠ expected_cols then fsRename fs path (legacyOf path)
    else fs

/-- `ts_s = int(floor(float(ts_ms)/1000.0 + 0.5))` (numbers modelled as
exact rationals). -/
def ts_seconds (ts_ms : ℚ) : ℤ := ⌊ts_ms / 1000 + 1 / 2⌋

/-- Python `int()` applied to a number: truncation toward zero. -/
def truncInt (q : ℚ) : ℤ := if q < 0 then ⌈q⌉ else ⌊q⌋

/-- A JSON field that the handler reads with `data.get(...)`: absent,
present but not a list, or a list of optional numbers. -/
inductive JField where
  | absent
  | notSeq
  | seq (xs : List (Option ℚ))
deriving DecidableEq

/-- The ingest request body (well-typed fields; `device` and `names`, when
present, are a string resp. a list of strings, `ts` a number). -/
structure Payload where
  device : Option String
  ts : Option ℚ
  names : Option (List String)
  temps : JField
  raw : JField
deriving DecidableEq

/-- The two possible responses of `POST /ingest`:
`400 {ok: false, error: "bad payload"}` or `200 {ok: true, n: n}`. -/
inductive IngestResult where
  | bad
  | ok (n : ℕ)
deriving DecidableEq

/-- `names and len(names) == n` (truthiness of a list = nonemptiness). -/
def namesOk (names : Option (List String)) (n : ℕ) : Bool :=
  match names with
  | some ns => !ns.isEmpty && ns.length == n
  | none => false

/-- Series header: `ts_s, ts_ms`, then `{nm}{sfx}` per sensor name when
`names` is usable, else positional `t{i}{sfx}`. -/
def headerRow (sfx : String) (names : Option (List String)) (n : ℕ) : CsvRow :=
  [.str "ts_s", .str "ts_ms"] ++
    (if namesOk names n then (names.getD []).map (fun nm => Cell.str (nm ++ sfx))
     else (List.range n).map (fun i => Cell.str ("t" ++ decRepr i ++ sfx)))

/-- Header of the clean series (`_C` suffix). -/
def cleanHeader : Option (List String) → ℕ → CsvRow := headerRow "_C"

/-- Header of the raw series (`_raw` suffix). -/
def rawHeader : Option (List String) → ℕ → CsvRow := headerRow "_raw"

/-- The two timestamp cells of an appended row:
`[ts_s, int(ts_ms)]`. -/
def tsCells (ts_ms : ℚ) : CsvRow :=
  [.num (some ((ts_seconds ts_ms : ℤ) : ℚ)), .num (some ((truncInt ts_ms : ℤ) : ℚ))]

/-- `if not os.path.exists(path): write the header row` — create the file
with just `hdr` when absent, else leave it alone. -/
def ensureHeader (fs : FS) (path : String) (hdr : CsvRow) : FS :=
  if (fsGet fs path).isNone then fsSet fs path [hdr] else fs

/-- Steps (1)–(3) of the write path: rotate both series against the expected
column count `2 + n`, then create whichever headers are missing. -/
def writePrep (fs : FS) (device : String) (names : Option (List String)) (n : ℕ) : FS :=
  ensureHeader
    (ensureHeader
      (rotate_if_mismatch (rotate_if_mismatch fs (fpath device "clean") (2 + n))
        (fpath device "raw") (2 + n))
      (fpath device "clean") (cleanHeader names n))
    (fpath device "raw") (rawHeader names n)

/-- A data row: the two timestamp cells followed by one cell per value. -/
def dataRowOf (ts_ms : ℚ) (vs : List (Option ℚ)) : CsvRow :=
  tsCells ts_ms ++ vs.map Cell.num

/-- The write path of a validated ingest call: rotate both series on column
drift, create missing headers, append the clean row, and append the raw row
only when the raw array's length equals the sensor count. -/
def ingestWrite (fs : FS) (device : String) (names : Option (List String)) (ts_ms : ℚ)
    (xs : List (Option ℚ)) (raw : JField) : FS :=
  let fs5 := fsAppend (writePrep fs device names xs.length) (fpath device "clean")
    (dataRowOf ts_ms xs)
  match raw with
  | .seq rs =>
    if rs.length == xs.length then fsAppend fs5 (fpath device "raw") (dataRowOf ts_ms rs)
    else fs5
  | _ => fs5

/-- `POST /ingest`.  Returns the response and the updated data directory.
`data.get("temps", [])` defaults an absent `temps` to `[]`, which then fails
the emptiness check; a non-list `temps` fails `isinstance(temps, list)`.
The metadata JSON write (best-effort, swallowed on failure) is not modelled:
no claim inspects it. -/
def ingest (fs : FS) (p : Payload) : IngestResult × FS :=
  let tempsL : Option (List (Option ℚ)) :=
    match p.temps with
    | .seq xs => some xs
    | .absent => some []
    | .notSeq => none
  match p.ts, tempsL with
  | none, _ => (.bad, fs)
  | some _, none => (.bad, fs)
  | some ts_ms, some xs =>
    if xs.isEmpty then (.bad, fs)
    else (.ok xs.length, ingestWrite fs (p.device.getD "unknown") p.names ts_ms xs p.raw)

/-- The data directory after a sequence of ingest calls, starting empty. -/
def runIngests (ps : List Payload) : FS :=
  ps.foldl (fun fs p => (ingest fs p).2) []

/-- Response of `GET /data/{device}/raw.csv` (404 with empty body when the
file does not exist, else 200 with the file as text/csv). -/
inductive CsvResponse where
  | notFound
  | okFile (f : File)
deriving DecidableEq

def get_raw_csv (fs : FS) (device : String) : CsvResponse :=
  match fsGet fs (fpath device "raw") with
  | none => .notFound
  | some f => .okFile f

/-! ## `dashboard/app.py` -/

/-- One reconstructed row: its time-axis value `abs_s` and its value
columns.  The other columns of the dataframe ride along unchanged through
row slicing and are not modelled. -/
abbrev DRow := ℚ × List (Option ℚ)

/-- Indices `i` with `df["abs_s"].diff().fillna(0) < 0` true, i.e. positions
where the time axis strictly decreases (`diff` at index 0 is `NaN`, filled
with `0`, hence never a decrease). -/
def decIdxs (ts : List ℚ) : List ℕ :=
  (List.range ts.length).filter
    (fun i => decide (1 ≤ i) && decide (ts.getD i 0 < ts.getD (i - 1) 0))

/-- `df.index[dec].max()` — the last index at which the time axis strictly
decreases, when any. -/
def lastDecIdx (ts : List ℚ) : Option ℕ := (decIdxs ts).max?

/-- Reset handling: `if trim_reset and len(df) > 1`, and if any decrease
exists, `df = df.loc[last+1:]` — keep only the rows with index `≥ last+1`. -/
def trim_reset (trim : Bool) (rows : List DRow) : List DRow :=
  if trim && decide (1 < rows.length) then
    match lastDecIdx (rows.map Prod.fst) with
    | some last => rows.drop (last + 1)
    | none => rows
  else rows

/-- `now_s = float(df["abs_s"].iloc[-1])` (the source indexes the last row
unconditionally, so its value on an empty frame is never used; the
embedding defaults to 0 there). -/
def now_s (rows : List DRow) : ℚ := ((rows.map Prod.fst).getLast?).getD 0

/-- `df = df[df["abs_s"] >= cut]` with `cut = now_s - mins*60.0`. -/
def windowKeep (mins : ℚ) (rows : List DRow) : List DRow :=
  rows.filter (fun r => decide (now_s rows - mins * 60 ≤ r.1))

/-- `df["abs_s"].min()` over the kept rows. -/
def minTime (rows : List DRow) : ℚ := ((rows.map Prod.fst).min?).getD 0

/-- `df["time_s"] = df["abs_s"] - df["abs_s"].min()`: the re-zeroed time
axis of the kept rows. -/
def rezeroTimes (rows : List DRow) : List ℚ :=
  rows.map (fun r => r.1 - minTime rows)

/-- The regex `^t(\d+)_C$` (`tpat`) as a predicate on a column name
(`\d` taken as the ASCII digits). -/
def isTPat (s : String) : Bool :=
  match s.toList with
  | 't' :: rest =>
    match rest.reverse with
    | 'C' :: '_' :: midRev => !midRev.isEmpty && midRev.all Char.isDigit
    | _ => false
  | _ => false

/-- Python dict assignment `m[k] = v` on an association list. -/
def dictSet (m : List (String × String)) (k v : String) : List (String × String) :=
  if m.any (fun e => e.1 == k) then m.map (fun e => if e.1 == k then (k, v) else e)
  else m ++ [(k, v)]

/-- Python `m.get(k, k)`. -/
def dictGetD (m : List (String × String)) (k : String) : String :=
  ((m.find? (fun e => e.1 == k)).map (fun e => e.2)).getD k

/-- `name_overrides and len(name_overrides) == len(val_cols)`. -/
def namesUsable (nameOverrides : Option (List String)) (valCols : List String) : Bool :=
  match nameOverrides with
  | some ns => !ns.isEmpty && ns.length == valCols.length
  | none => false

/-- Build a rename dict by one pass over `enumerate(val_cols)`, inserting
`col ↦ g i col` for the columns selected by `P`. -/
def buildMap (P : String → Bool) (g : ℕ → String → String) (valCols : List String) :
    List (String × String) :=
  valCols.enum.foldl (fun m ic => if P ic.2 then dictSet m ic.2 (g ic.1 ic.2) else m) []

/-- Build a rename dict by one pass over `enumerate(val_cols)`, inserting
`col ↦ g i col` for every column. -/
def buildMapAll (g : ℕ → String → String) (valCols : List String) :
    List (String × String) :=
  valCols.enum.foldl (fun m ic => dictSet m ic.2 (g ic.1 ic.2)) []

/-- The `rename_map` construction of the dashboard: with usable name
overrides, map each column matching `tpat` to `{names[i]}_C`; else if every
value column matches `tpat`, map column `i` to `Sensor{i+1}_C`; else empty. -/
def rename_map (nameOverrides : Option (List String)) (valCols : List String) :
    List (String × String) :=
  if namesUsable nameOverrides valCols then
    buildMap isTPat (fun i _ => (nameOverrides.getD []).getD i "" ++ "_C") valCols
  else if valCols.all isTPat then
    buildMapAll (fun i _ => "Sensor" ++ decRepr (i + 1) ++ "_C") valCols
  else []

/-- `val_cols = [rename_map.get(c, c) for c in val_cols]`. -/
def renamedCols (nameOverrides : Option (List String)) (valCols : List String) :
    List String :=
  valCols.map (fun c => dictGetD (rename_map nameOverrides valCols) c)

/-- `round_half_up`: `np.where(np.isnan(a), np.nan, np.floor(a + 0.5))` —
missing stays missing, a number maps to `floor(x + 0.5)`. -/
def round_half_up (x : Option ℚ) : Option ℚ :=
  x.map (fun a => ((⌊a + 1 / 2⌋ : ℤ) : ℚ))

/-! ## Derived notions used by the claims -/

/-- Number of data rows (rows after the header) of the file at `path`;
`0` when the file is absent. -/
def dataRows (fs : FS) (path : String) : ℕ :=
  ((fsGet fs path).getD []).length - 1

/-- The invariant of claim C9 on one file: every row after the header has
exactly the header's column count. -/
def widthsOk (f : File) : Bool :=
  f.tail.all (fun r => r.length == (f.headD []).length)

/-- No supplied sensor name contains a comma, newline or carriage return
(the characters that make the textual comma count of a header line diverge
from its logical column count). -/
def nameSafe (nm : String) : Bool :=
  !nm.toList.any (fun c => c == ',' || c == '\n' || c == '\r')

def namesSafe (p : Payload) : Bool :=
  match p.names with
  | some ns => ns.all nameSafe
  | none => true

/-- The rotation check at `path` would leave the file in place: either no
file exists there, or its first line already counts `E` columns. -/
def noRotate (fs : FS) (path : String) (E : ℕ) : Prop :=
  ∀ f, fsGet fs path = some f → lineCols (f.headD []) = E

/-- Internal strengthening of C9's invariant: the file is nonempty, its
header has at least two cells, none of which contributes a comma to the
serialized header line, and every later row has the header's width. -/
def FileGood (f : File) : Prop :=
  match f with
  | [] => False
  | h :: t => 2 ≤ h.length ∧ (∀ c ∈ h, cellCommas c = 0) ∧ ∀ r ∈ t, r.length = h.length

/-- Every file in the data directory satisfies `FileGood`. -/
def FSGood (fs : FS) : Prop := ∀ e ∈ fs, FileGood e.2

/-- Every file in the data directory is nonempty (has a first line). -/
def FilesNonempty (fs : FS) : Prop := ∀ e ∈ fs, e.2 ≠ []

/-! ## Filesystem lemmas -/

theorem fsGet_nil (q : String) : fsGet [] q = none := rfl

theorem fsGet_cons (e : String × File) (fs : FS) (q : String) :
    fsGet (e :: fs) q = if e.1 = q then some e.2 else fsGet fs q := by
  by_cases h : e.1 = q
  · rw [if_pos h]
    unfold fsGet
    rw [List.find?_cons_of_pos _ (by simp [h])]
    rfl
  · rw [if_neg h]
    unfold fsGet
    rw [List.find?_cons_of_neg _ (by simp [h])]

theorem fsRemove_cons (e : String × File) (fs : FS) (p : String) :
    fsRemove (e :: fs) p = if e.1 = p then fsRemove fs p else e :: fsRemove fs p := by
  by_cases h : e.1 = p <;> simp [fsRemove, List.filter_cons, h]

theorem fsGet_remove (fs : FS) (p q : String) :
    fsGet (fsRemove fs p) q = if q = p then none else fsGet fs q := by
  induction fs with
  | nil => simp [fsGet, fsRemove]
  | cons e fs ih =>
    rw [fsRemove_cons]
    by_cases hep : e.1 = p
    · rw [if_pos hep, ih, fsGet_cons]
      by_cases hqp : q = p
      · simp [hqp]
      · have heq : ¬e.1 = q := by rw [hep]; exact fun h => hqp h.symm
        simp [hqp, heq]
    · rw [if_neg hep, fsGet_cons, fsGet_cons, ih]
      by_cases heq : e.1 = q
      · have hqp : ¬q = p := by rw [← heq]; exact fun h => hep h
        simp [heq, hqp]
      · simp [heq]

theorem fsGet_set (fs : FS) (p : String) (f : File) (q : String) :
    fsGet (fsSet fs p f) q = if q = p then some f else fsGet fs q := by
  unfold fsSet
  rw [fsGet_cons, fsGet_remove]
  by_cases h : q = p
  · simp [h]
  · have h' : ¬(p = q) := fun hh => h hh.symm
    simp [h, h']

theorem fsGet_rename_of_get (fs : FS) (s d q : String) (f : File)
    (hs : fsGet fs s = some f) :
    fsGet (fsRename fs s d) q =
      if q = d then some f else if q = s then none else fsGet fs q := by
  unfold fsRename
  rw [hs]
  rw [fsGet_set, fsGet_remove]

theorem fsGet_append (fs : FS) (p : String) (row : CsvRow) (q : String) :
    fsGet (fsAppend fs p row) q =
      if q = p then some ((fsGet fs p).getD [] ++ [row]) else fsGet fs q := by
  cases h : fsGet fs p <;> simp [fsAppend, h, fsGet_set]

/-! ## Length facts about `pyReplace` and the series paths -/

theorem isPrefixOf_length_le : ∀ (l₁ l₂ : List Char), l₁.isPrefixOf l₂ = true → l₁.length ≤ l₂.length := by
  intro l₁
  induction l₁ with
  | nil => intro l₂ _; simp
  | cons a l ih =>
    intro l₂ h
    cases l₂ with
    | nil => simp [List.isPrefixOf] at h
    | cons b l₂' =>
      simp only [List.isPrefixOf, Bool.and_eq_true] at h
      have := ih l₂' h.2
      simp only [List.length_cons]
      omega

theorem isPrefixOf_self : ∀ l : List Char, l.isPrefixOf l = true := by
  intro l
  induction l with
  | nil => simp [List.isPrefixOf]
  | cons a l ih => simp [List.isPrefixOf, ih]

theorem replChars_nil (p : Char) (ps rep : List Char) (fuel : ℕ) :
    replChars p ps rep fuel [] = [] := by
  cases fuel <;> rfl

theorem replChars_length_ge (p : Char) (ps rep : List Char) (hrep : ps.length + 1 ≤ rep.length) :
    ∀ (fuel : ℕ) (l : List Char), l.length ≤ fuel → l.length ≤ (replChars p ps rep fuel l).length := by
  intro fuel
  induction fuel with
  | zero =>
    intro l hl
    cases l with
    | nil => simp [replChars]
    | cons c cs => simp at hl
  | succ n ih =>
    intro l hl
    cases l with
    | nil => simp [replChars]
    | cons c cs =>
      rw [replChars]
      split
      · rename_i hpre
        have h1 : (cs.drop ps.length).length ≤ n := by
          simp only [List.length_drop]
          simp only [List.length_cons] at hl
          omega
        have h2 := ih (cs.drop ps.length) h1
        have h3 : ps.length + 1 ≤ cs.length + 1 := by
          simpa using isPrefixOf_length_le _ _ hpre
        simp only [List.length_append, List.length_cons, List.length_drop] at *
        omega
      · have h2 := ih cs (by simp only [List.length_cons] at hl; omega)
        simp only [List.length_cons]
        omega

theorem replChars_suffix_length (p : Char) (ps rep : List Char) (k : ℕ)
    (hrep : rep.length = ps.length + 1 + k) :
    ∀ (l1 : List Char) (fuel : ℕ), (l1 ++ p :: ps).length ≤ fuel + 1 →
      (l1 ++ p :: ps).length + k ≤ (replChars p ps rep (fuel + 1) (l1 ++ p :: ps)).length := by
  intro l1
  induction l1 with
  | nil =>
    intro fuel _
    simp only [List.nil_append]
    rw [replChars, if_pos (isPrefixOf_self (p :: ps)), List.drop_length, replChars_nil]
    simp only [List.append_nil, List.length_cons]
    omega
  | cons c l1' ih =>
    intro fuel hfuel
    rw [List.cons_append, replChars]
    split
    · rename_i hpre
      have hge := replChars_length_ge p ps rep (by omega) fuel
        (((l1' ++ p :: ps) : List Char).drop ps.length)
        (by
          simp only [List.length_drop]
          simp only [List.cons_append, List.length_cons] at hfuel
          omega)
      have h3 : ps.length + 1 ≤ (l1' ++ p :: ps).length + 1 := by
        simpa using isPrefixOf_length_le _ _ hpre
      simp only [List.length_append, List.length_cons, List.length_drop] at *
      omega
    · rcases fuel with _ | fuel'
      · simp only [List.cons_append, List.length_cons, List.length_append,
          List.length_cons] at hfuel
        omega
      · have := ih fuel' (by
          simp only [List.cons_append, List.length_cons] at hfuel
          omega)
        simp only [List.length_cons, List.length_append] at *
        omega

theorem fpath_clean_eq (d : String) : fpath d "clean" = DATA_DIR ++ "/" ++ d ++ ".csv" := by
  show DATA_DIR ++ "/" ++ d ++ "" ++ ".csv" = DATA_DIR ++ "/" ++ d ++ ".csv"
  rw [String.append_empty]

theorem fpath_raw_eq (d : String) : fpath d "raw" = DATA_DIR ++ "/" ++ d ++ "_raw" ++ ".csv" := rfl

theorem fpath_clean_length (d : String) : (fpath d "clean").length = d.length + 9 := by
  rw [fpath_clean_eq]
  simp only [String.length_append, DATA_DIR]
  have h1 : ("data" : String).length = 4 := rfl
  have h2 : ("/" : String).length = 1 := rfl
  have h3 : (".csv" : String).length = 4 := rfl
  omega

theorem fpath_raw_length (d : String) : (fpath d "raw").length = d.length + 13 := by
  rw [fpath_raw_eq]
  simp only [String.length_append, DATA_DIR]
  have h1 : ("data" : String).length = 4 := rfl
  have h2 : ("/" : String).length = 1 := rfl
  have h3 : ("_raw" : String).length = 4 := rfl
  have h4 : (".csv" : String).length = 4 := rfl
  omega

theorem pyReplace_csv_toList (s : String) :
    pyReplace s ".csv" "_legacy.csv" =
      ⟨replChars '.' ['c', 's', 'v'] "_legacy.csv".toList s.toList.length s.toList⟩ := rfl

theorem legacyOf_length_ge (s : String) : s.length ≤ (legacyOf s).length := by
  rw [legacyOf, pyReplace_csv_toList]
  exact replChars_length_ge '.' ['c', 's', 'v'] "_legacy.csv".toList (by decide)
    s.toList.length s.toList le_rfl

theorem legacyOf_length_of_suffix (a : String) :
    (a ++ ".csv").length + 7 ≤ (legacyOf (a ++ ".csv")).length := by
  rw [legacyOf, pyReplace_csv_toList]
  have hdata : (a ++ ".csv").toList = a.toList ++ '.' :: ['c', 's', 'v'] := by
    show (a ++ ".csv").data = a.data ++ '.' :: ['c', 's', 'v']
    rw [String.data_append]
  show (a ++ ".csv").toList.length + 7 ≤
    (replChars '.' ['c', 's', 'v'] "_legacy.csv".toList
      (a ++ ".csv").toList.length (a ++ ".csv").toList).length
  rw [hdata]
  obtain ⟨f, hf⟩ : ∃ f, (a.toList ++ '.' :: ['c', 's', 'v']).length = f + 1 :=
    ⟨(a.toList ++ '.' :: ['c', 's', 'v']).length - 1, by
      simp only [List.length_append, List.length_cons]
      omega⟩
  have h := replChars_suffix_length '.' ['c', 's', 'v'] "_legacy.csv".toList 7 (by decide)
    a.toList f (by omega)
  rw [hf] at h
  rw [hf]
  exact h

theorem legacyOf_clean_length (d : String) :
    d.length + 16 ≤ (legacyOf (fpath d "clean")).length := by
  have h1 := legacyOf_length_of_suffix (DATA_DIR ++ "/" ++ d)
  rw [← fpath_clean_eq] at h1
  have h2 := fpath_clean_length d
  omega

theorem legacyOf_raw_length (d : String) :
    d.length + 20 ≤ (legacyOf (fpath d "raw")).length := by
  have h1 := legacyOf_length_of_suffix (DATA_DIR ++ "/" ++ d ++ "_raw")
  have he : DATA_DIR ++ "/" ++ d ++ "_raw" ++ ".csv" = fpath d "raw" := (fpath_raw_eq d).symm
  rw [he] at h1
  have h2 := fpath_raw_length d
  have h3 : (DATA_DIR ++ "/" ++ d ++ "_raw").length = d.length + 9 := by
    simp only [String.length_append, DATA_DIR]
    have h4 : ("data" : String).length = 4 := rfl
    have h5 : ("/" : String).length = 1 := rfl
    have h6 : ("_raw" : String).length = 4 := rfl
    omega
  omega

theorem clean_ne_raw (d : String) : fpath d "clean" ≠ fpath d "raw" := by
  intro h
  have := congrArg String.length h
  rw [fpath_clean_length, fpath_raw_length] at this
  omega

theorem legacy_clean_ne_clean (d : String) : legacyOf (fpath d "clean") ≠ fpath d "clean" := by
  intro h
  have := congrArg String.length h
  have h1 := legacyOf_clean_length d
  rw [fpath_clean_length] at this
  omega

theorem legacy_clean_ne_raw (d : String) : legacyOf (fpath d "clean") ≠ fpath d "raw" := by
  intro h
  have := congrArg String.length h
  have h1 := legacyOf_clean_length d
  rw [fpath_raw_length] at this
  omega

theorem legacy_raw_ne_clean (d : String) : legacyOf (fpath d "raw") ≠ fpath d "clean" := by
  intro h
  have := congrArg String.length h
  have h1 := legacyOf_raw_length d
  rw [fpath_clean_length] at this
  omega

theorem legacy_raw_ne_raw (d : String) : legacyOf (fpath d "raw") ≠ fpath d "raw" := by
  intro h
  have := congrArg String.length h
  have h1 := legacyOf_raw_length d
  rw [fpath_raw_length] at this
  omega

/-! ## Rotation lemmas -/

theorem rotate_of_none (fs : FS) (path : String) (E : ℕ) (h : fsGet fs path = none) :
    rotate_if_mismatch fs path E = fs := by
  simp [rotate_if_mismatch, h]

theorem rotate_of_eq (fs : FS) (path : String) (E : ℕ) (f : File)
    (h : fsGet fs path = some f) (he : lineCols (f.headD []) = E) :
    rotate_if_mismatch fs path E = fs := by
  unfold rotate_if_mismatch
  rw [h]
  show (if lineCols (f.headD []) ≠ E then fsRename fs path (legacyOf path) else fs) = fs
  rw [if_neg (not_not_intro he)]

theorem rotate_of_ne (fs : FS) (path : String) (E : ℕ) (f : File)
    (h : fsGet fs path = some f) (he : lineCols (f.headD []) ≠ E) :
    rotate_if_mismatch fs path E = fsRename fs path (legacyOf path) := by
  unfold rotate_if_mismatch
  rw [h]
  show (if lineCols (f.headD []) ≠ E then fsRename fs path (legacyOf path) else fs) = _
  rw [if_pos he]

theorem fsGet_rotate_other (fs : FS) (path : String) (E : ℕ) (q : String)
    (hq1 : q ≠ path) (hq2 : q ≠ legacyOf path) :
    fsGet (rotate_if_mismatch fs path E) q = fsGet fs q := by
  cases h : fsGet fs path with
  | none => rw [rotate_of_none fs path E h]
  | some f =>
    by_cases he : lineCols (f.headD []) = E
    · rw [rotate_of_eq fs path E f h he]
    · rw [rotate_of_ne fs path E f h he, fsGet_rename_of_get fs path (legacyOf path) q f h,
        if_neg hq2, if_neg hq1]

theorem fsGet_rotate_self (fs : FS) (path : String) (E : ℕ) (f' : File)
    (hne : legacyOf path ≠ path)
    (h : fsGet (rotate_if_mismatch fs path E) path = some f') :
    fsGet fs path = some f' ∧ lineCols (f'.headD []) = E := by
  cases h0 : fsGet fs path with
  | none => rw [rotate_of_none fs path E h0] at h; rw [h0] at h; exact absurd h (by simp)
  | some f =>
    by_cases he : lineCols (f.headD []) = E
    · rw [rotate_of_eq fs path E f h0 he] at h
      rw [h0] at h
      have hf : f = f' := Option.some.inj h
      subst hf
      exact ⟨rfl, he⟩
    · rw [rotate_of_ne fs path E f h0 he,
        fsGet_rename_of_get fs path (legacyOf path) path f h0,
        if_neg (fun hh => hne hh.symm), if_pos rfl] at h
      exact absurd h (by simp)

/-! ## Preservation of the file invariants -/

theorem fsGet_mem (fs : FS) (path : String) (f : File) (h : fsGet fs path = some f) :
    ∃ e ∈ fs, e.2 = f := by
  unfold fsGet at h
  cases hf : fs.find? (fun e => e.1 == path) with
  | none => rw [hf] at h; exact absurd h (by simp)
  | some e =>
    rw [hf] at h
    refine ⟨e, List.mem_of_find?_eq_some hf, ?_⟩
    injection h

theorem FSGood_remove (fs : FS) (p : String) (h : FSGood fs) : FSGood (fsRemove fs p) :=
  fun e he => h e (List.mem_of_mem_filter he)

theorem FSGood_set (fs : FS) (p : String) (f : File) (h : FSGood fs) (hf : FileGood f) :
    FSGood (fsSet fs p f) := by
  intro e he
  rcases List.mem_cons.mp he with he | he
  · rw [he]; exact hf
  · exact FSGood_remove fs p h e he

theorem FSGood_rename (fs : FS) (s d : String) (h : FSGood fs) : FSGood (fsRename fs s d) := by
  unfold fsRename
  cases hg : fsGet fs s with
  | none => exact h
  | some f =>
    obtain ⟨e, he, hef⟩ := fsGet_mem fs s f hg
    exact FSGood_set _ d f (FSGood_remove fs s h) (hef ▸ h e he)

theorem FSGood_rotate (fs : FS) (path : String) (E : ℕ) (h : FSGood fs) :
    FSGood (rotate_if_mismatch fs path E) := by
  cases hg : fsGet fs path with
  | none => rw [rotate_of_none fs path E hg]; exact h
  | some f =>
    by_cases he : lineCols (f.headD []) = E
    · rw [rotate_of_eq fs path E f hg he]; exact h
    · rw [rotate_of_ne fs path E f hg he]; exact FSGood_rename fs path (legacyOf path) h

theorem FileGood_append (f : File) (row : CsvRow) (hf : FileGood f)
    (hrow : row.length = (f.headD []).length) : FileGood (f ++ [row]) := by
  cases f with
  | nil => exact absurd hf (by simp [FileGood])
  | cons h t =>
    obtain ⟨h1, h2, h3⟩ := hf
    refine ⟨h1, h2, ?_⟩
    intro r hr
    rcases List.mem_append.mp hr with hr | hr
    · exact h3 r hr
    · rw [List.mem_singleton.mp hr]
      simpa using hrow

theorem FSGood_append (fs : FS) (p : String) (row : CsvRow) (f : File) (h : FSGood fs)
    (hget : fsGet fs p = some f) (hrow : row.length = (f.headD []).length) :
    FSGood (fsAppend fs p row) := by
  unfold fsAppend
  rw [hget]
  obtain ⟨e, he, hef⟩ := fsGet_mem fs p f hget
  exact FSGood_set fs p _ h (FileGood_append f row (hef ▸ h e he) hrow)

theorem FilesNonempty_remove (fs : FS) (p : String) (h : FilesNonempty fs) :
    FilesNonempty (fsRemove fs p) :=
  fun e he => h e (List.mem_of_mem_filter he)

theorem FilesNonempty_set (fs : FS) (p : String) (f : File) (h : FilesNonempty fs)
    (hf : f ≠ []) : FilesNonempty (fsSet fs p f) := by
  intro e he
  rcases List.mem_cons.mp he with he | he
  · rw [he]; exact hf
  · exact FilesNonempty_remove fs p h e he

theorem FilesNonempty_rename (fs : FS) (s d : String) (h : FilesNonempty fs) :
    FilesNonempty (fsRename fs s d) := by
  unfold fsRename
  cases hg : fsGet fs s with
  | none => exact h
  | some f =>
    obtain ⟨e, he, hef⟩ := fsGet_mem fs s f hg
    exact FilesNonempty_set _ d f (FilesNonempty_remove fs s h) (hef ▸ h e he)

theorem FilesNonempty_rotate (fs : FS) (path : String) (E : ℕ) (h : FilesNonempty fs) :
    FilesNonempty (rotate_if_mismatch fs path E) := by
  cases hg : fsGet fs path with
  | none => rw [rotate_of_none fs path E hg]; exact h
  | some f =>
    by_cases he : lineCols (f.headD []) = E
    · rw [rotate_of_eq fs path E f hg he]; exact h
    · rw [rotate_of_ne fs path E f hg he]
      exact FilesNonempty_rename fs path (legacyOf path) h

theorem FilesNonempty_append (fs : FS) (p : String) (row : CsvRow) (h : FilesNonempty fs) :
    FilesNonempty (fsAppend fs p row) := by
  unfold fsAppend
  cases hg : fsGet fs p with
  | none => exact FilesNonempty_set fs p [row] h (by simp)
  | some f => exact FilesNonempty_set fs p (f ++ [row]) h (by simp)

/-! ## Header facts -/

theorem decDigits_ne_comma : ∀ (fuel n : ℕ), ∀ c ∈ decDigits fuel n, c ≠ ',' := by
  intro fuel
  induction fuel with
  | zero =>
    intro n c hc
    rw [decDigits, List.mem_singleton] at hc
    subst hc
    have hd : n % 10 < 10 := Nat.mod_lt _ (by omega)
    set d := n % 10 with hdd
    clear_value d
    interval_cases d <;> decide
  | succ fuel ih =>
    intro n c hc
    rw [decDigits] at hc
    split at hc
    · rename_i h
      rw [List.mem_singleton] at hc
      subst hc
      interval_cases n <;> decide
    · rcases List.mem_append.mp hc with hc | hc
      · exact ih (n / 10) c hc
      · rw [List.mem_singleton] at hc
        subst hc
        have hd : n % 10 < 10 := Nat.mod_lt _ (by omega)
        set d := n % 10 with hdd
        clear_value d
        interval_cases d <;> decide

theorem count_comma_append (s t : String) :
    (s ++ t).toList.count ',' = s.toList.count ',' + t.toList.count ',' := by
  show (s ++ t).data.count ',' = s.data.count ',' + t.data.count ','
  rw [String.data_append, List.count_append]

theorem nameSafe_no_comma (nm : String) (h : nameSafe nm = true) :
    nm.toList.count ',' = 0 := by
  rw [List.count_eq_zero]
  intro hmem
  unfold nameSafe at h
  simp only [Bool.not_eq_true', List.any_eq_false] at h
  have := h ',' hmem
  simp at this

theorem decRepr_no_comma (i : ℕ) : (decRepr i).toList.count ',' = 0 := by
  rw [List.count_eq_zero]
  intro hmem
  exact decDigits_ne_comma i i ',' hmem rfl

theorem headerRow_length (sfx : String) (names : Option (List String)) (n : ℕ) :
    (headerRow sfx names n).length = 2 + n := by
  unfold headerRow
  split
  · rename_i h
    unfold namesOk at h
    cases names with
    | none => simp at h
    | some ns =>
      simp only [Bool.and_eq_true, beq_iff_eq] at h
      simp only [Option.getD_some, List.length_append, List.length_cons,
        List.length_nil, List.length_map, h.2]
  · simp only [List.length_append, List.length_cons, List.length_nil, List.length_map,
      List.length_range]

theorem headerRow_commas (sfx : String) (names : Option (List String)) (n : ℕ)
    (hsfx : sfx.toList.count ',' = 0)
    (hsafe : ∀ nm ∈ names.getD [], nameSafe nm = true) :
    ∀ c ∈ headerRow sfx names n, cellCommas c = 0 := by
  intro c hc
  unfold headerRow at hc
  rcases List.mem_append.mp hc with hc | hc
  · rcases List.mem_cons.mp hc with hc | hc
    · subst hc; decide
    · rw [List.mem_singleton] at hc; subst hc; decide
  · split at hc
    · rename_i h
      obtain ⟨nm, hnm, hcc⟩ := List.mem_map.mp hc
      subst hcc
      show (nm ++ sfx).toList.count ',' = 0
      rw [count_comma_append, nameSafe_no_comma nm (hsafe nm hnm), hsfx]
    · obtain ⟨i, _, hcc⟩ := List.mem_map.mp hc
      subst hcc
      show ("t" ++ decRepr i ++ sfx).toList.count ',' = 0
      rw [count_comma_append, count_comma_append, decRepr_no_comma, hsfx]
      decide

theorem FileGood_header (sfx : String) (names : Option (List String)) (n : ℕ)
    (hsfx : sfx.toList.count ',' = 0)
    (hsafe : ∀ nm ∈ names.getD [], nameSafe nm = true) :
    FileGood [headerRow sfx names n] := by
  have hlen := headerRow_length sfx names n
  have hcom := headerRow_commas sfx names n hsfx hsafe
  cases hh : headerRow sfx names n with
  | nil => rw [hh] at hlen; simp at hlen; omega
  | cons c t =>
    refine ⟨?_, ?_, ?_⟩
    · rw [← hh, hlen]; omega
    · rw [← hh]; exact hcom
    · intro r hr; simp at hr

theorem lineCols_of_good (h : CsvRow) (h2 : 2 ≤ h.length)
    (hcom : ∀ c ∈ h, cellCommas c = 0) : lineCols h = h.length := by
  cases h with
  | nil => simp at h2
  | cons c t =>
    cases t with
    | nil => simp at h2
    | cons c' t' =>
      show (((c :: c' :: t').map cellCommas).sum + ((c :: c' :: t').length - 1)) + 1 =
        (c :: c' :: t').length
      have hsum : ((c :: c' :: t').map cellCommas).sum = 0 := by
        rw [List.sum_eq_zero]
        intro x hx
        obtain ⟨cc, hcc, hx⟩ := List.mem_map.mp hx
        rw [← hx]
        exact hcom cc hcc
      rw [hsum]
      simp only [List.length_cons]
      omega

theorem FileGood_lineCols (f : File) (hf : FileGood f) :
    lineCols (f.headD []) = (f.headD []).length := by
  cases f with
  | nil => exact absurd hf (by simp [FileGood])
  | cons h t => exact lineCols_of_good h hf.1 hf.2.1

/-! ## `ensureHeader` lemmas -/

theorem fsGet_ensure_other (fs : FS) (path : String) (hdr : CsvRow) (q : String)
    (hq : q ≠ path) : fsGet (ensureHeader fs path hdr) q = fsGet fs q := by
  unfold ensureHeader
  split
  · rw [fsGet_set, if_neg hq]
  · rfl

theorem fsGet_ensure_none (fs : FS) (path : String) (hdr : CsvRow)
    (h : fsGet fs path = none) : fsGet (ensureHeader fs path hdr) path = some [hdr] := by
  unfold ensureHeader
  rw [if_pos (by simp [h]), fsGet_set, if_pos rfl]

theorem fsGet_ensure_some (fs : FS) (path : String) (hdr : CsvRow) (f : File)
    (h : fsGet fs path = some f) : fsGet (ensureHeader fs path hdr) path = some f := by
  unfold ensureHeader
  rw [if_neg (by simp [h])]
  exact h

theorem FSGood_ensure (fs : FS) (path : String) (hdr : CsvRow) (h : FSGood fs)
    (hhdr : FileGood [hdr]) : FSGood (ensureHeader fs path hdr) := by
  unfold ensureHeader
  split
  · exact FSGood_set fs path [hdr] h hhdr
  · exact h

theorem FilesNonempty_ensure (fs : FS) (path : String) (hdr : CsvRow) (h : FilesNonempty fs) :
    FilesNonempty (ensureHeader fs path hdr) := by
  unfold ensureHeader
  split
  · exact FilesNonempty_set fs path [hdr] h (by simp)
  · exact h

/-! ## Presence-monotonicity of the primitive operations -/

theorem pres_set (fs : FS) (p : String) (f : File) (q : String)
    (h : (fsGet fs q).isSome) : (fsGet (fsSet fs p f) q).isSome := by
  rw [fsGet_set]
  split <;> simp [h]

theorem pres_append (fs : FS) (p : String) (row : CsvRow) (q : String)
    (h : (fsGet fs q).isSome) : (fsGet (fsAppend fs p row) q).isSome := by
  rw [fsGet_append]
  split <;> simp [h]

theorem pres_ensure (fs : FS) (path : String) (hdr : CsvRow) (q : String)
    (h : (fsGet fs q).isSome) : (fsGet (ensureHeader fs path hdr) q).isSome := by
  unfold ensureHeader
  split
  · exact pres_set fs path [hdr] q h
  · exact h

theorem pres_rotate (fs : FS) (path : String) (E : ℕ) (q : String) (hq : q ≠ path)
    (h : (fsGet fs q).isSome) : (fsGet (rotate_if_mismatch fs path E) q).isSome := by
  cases hg : fsGet fs path with
  | none => rw [rotate_of_none fs path E hg]; exact h
  | some f =>
    by_cases he : lineCols (f.headD []) = E
    · rw [rotate_of_eq fs path E f hg he]; exact h
    · rw [rotate_of_ne fs path E f hg he, fsGet_rename_of_get fs path (legacyOf path) q f hg]
      split
      · simp
      · exact h

/-! ## The state of the two series files after `writePrep` -/

theorem writePrep_clean (fs : FS) (d : String) (names : Option (List String)) (n : ℕ)
    (h : FSGood fs) :
    ∃ fC, fsGet (writePrep fs d names n) (fpath d "clean") = some fC ∧
      (fC.headD []).length = 2 + n := by
  have hcr := clean_ne_raw d
  unfold writePrep
  cases hc : fsGet
      (rotate_if_mismatch (rotate_if_mismatch fs (fpath d "clean") (2 + n)) (fpath d "raw") (2 + n))
      (fpath d "clean") with
  | none =>
    refine ⟨[cleanHeader names n], ?_, ?_⟩
    · rw [fsGet_ensure_other _ _ _ _ hcr]
      exact fsGet_ensure_none _ _ _ hc
    · show (cleanHeader names n).length = 2 + n
      exact headerRow_length "_C" names n
  | some f =>
    have h1 : fsGet (rotate_if_mismatch fs (fpath d "clean") (2 + n)) (fpath d "clean") = some f := by
      rw [← fsGet_rotate_other (rotate_if_mismatch fs (fpath d "clean") (2 + n))
        (fpath d "raw") (2 + n) (fpath d "clean") hcr (Ne.symm (legacy_raw_ne_clean d))]
      exact hc
    have h0 := fsGet_rotate_self fs (fpath d "clean") (2 + n) f (legacy_clean_ne_clean d) h1
    have hgood : FileGood f := by
      obtain ⟨e, he, hef⟩ := fsGet_mem fs (fpath d "clean") f h0.1
      exact hef ▸ h e he
    have hlen : (f.headD []).length = 2 + n := by
      rw [← FileGood_lineCols f hgood]
      exact h0.2
    refine ⟨f, ?_, hlen⟩
    rw [fsGet_ensure_other _ _ _ _ hcr]
    exact fsGet_ensure_some _ _ _ f hc

theorem writePrep_raw (fs : FS) (d : String) (names : Option (List String)) (n : ℕ)
    (h : FSGood fs) :
    ∃ fR, fsGet (writePrep fs d names n) (fpath d "raw") = some fR ∧
      (fR.headD []).length = 2 + n := by
  have hcr := clean_ne_raw d
  unfold writePrep
  cases hr : fsGet
      (ensureHeader
        (rotate_if_mismatch (rotate_if_mismatch fs (fpath d "clean") (2 + n)) (fpath d "raw") (2 + n))
        (fpath d "clean") (cleanHeader names n))
      (fpath d "raw") with
  | none =>
    refine ⟨[rawHeader names n], fsGet_ensure_none _ _ _ hr, ?_⟩
    show (rawHeader names n).length = 2 + n
    exact headerRow_length "_raw" names n
  | some f =>
    have h2 : fsGet
        (rotate_if_mismatch (rotate_if_mismatch fs (fpath d "clean") (2 + n)) (fpath d "raw") (2 + n))
        (fpath d "raw") = some f := by
      rw [← fsGet_ensure_other _ (fpath d "clean") (cleanHeader names n) _ (Ne.symm hcr)]
      exact hr
    have h0 := fsGet_rotate_self (rotate_if_mismatch fs (fpath d "clean") (2 + n))
      (fpath d "raw") (2 + n) f (legacy_raw_ne_raw d) h2
    have hgood : FileGood f := by
      obtain ⟨e, he, hef⟩ := fsGet_mem _ (fpath d "raw") f h0.1
      exact hef ▸ FSGood_rotate fs (fpath d "clean") (2 + n) h e he
    have hlen : (f.headD []).length = 2 + n := by
      rw [← FileGood_lineCols f hgood]
      exact h0.2
    exact ⟨f, fsGet_ensure_some _ _ _ f hr, hlen⟩

theorem FSGood_writePrep (fs : FS) (d : String) (names : Option (List String)) (n : ℕ)
    (h : FSGood fs) (hsafe : ∀ nm ∈ names.getD [], nameSafe nm = true) :
    FSGood (writePrep fs d names n) := by
  unfold writePrep
  apply FSGood_ensure
  · apply FSGood_ensure
    · exact FSGood_rotate _ _ _ (FSGood_rotate _ _ _ h)
    · exact FileGood_header "_C" names n (by decide) hsafe
  · exact FileGood_header "_raw" names n (by decide) hsafe

theorem FilesNonempty_writePrep (fs : FS) (d : String) (names : Option (List String)) (n : ℕ)
    (h : FilesNonempty fs) : FilesNonempty (writePrep fs d names n) := by
  unfold writePrep
  exact FilesNonempty_ensure _ _ _ (FilesNonempty_ensure _ _ _
    (FilesNonempty_rotate _ _ _ (FilesNonempty_rotate _ _ _ h)))

theorem dataRowOf_length (ts_ms : ℚ) (vs : List (Option ℚ)) :
    (dataRowOf ts_ms vs).length = 2 + vs.length := by
  simp [dataRowOf, tsCells]
  omega

theorem FSGood_ingestWrite (fs : FS) (d : String) (names : Option (List String)) (ts_ms : ℚ)
    (xs : List (Option ℚ)) (raw : JField) (h : FSGood fs)
    (hsafe : ∀ nm ∈ names.getD [], nameSafe nm = true) :
    FSGood (ingestWrite fs d names ts_ms xs raw) := by
  obtain ⟨fC, hC, hCl⟩ := writePrep_clean fs d names xs.length h
  obtain ⟨fR, hR, hRl⟩ := writePrep_raw fs d names xs.length h
  have hprep := FSGood_writePrep fs d names xs.length h hsafe
  have h5 : FSGood (fsAppend (writePrep fs d names xs.length) (fpath d "clean")
      (dataRowOf ts_ms xs)) :=
    FSGood_append _ _ _ fC hprep hC (by rw [dataRowOf_length, hCl])
  unfold ingestWrite
  cases raw with
  | absent => exact h5
  | notSeq => exact h5
  | seq rs =>
    show FSGood (if rs.length == xs.length then _ else _)
    split
    · rename_i hlen
      have hR5 : fsGet (fsAppend (writePrep fs d names xs.length) (fpath d "clean")
          (dataRowOf ts_ms xs)) (fpath d "raw") = some fR := by
        rw [fsGet_append, if_neg (Ne.symm (clean_ne_raw d))]
        exact hR
      apply FSGood_append _ _ _ fR h5 hR5
      rw [dataRowOf_length, hRl]
      simp only [beq_iff_eq] at hlen
      rw [hlen]
    · exact h5

theorem FilesNonempty_ingestWrite (fs : FS) (d : String) (names : Option (List String))
    (ts_ms : ℚ) (xs : List (Option ℚ)) (raw : JField) (h : FilesNonempty fs) :
    FilesNonempty (ingestWrite fs d names ts_ms xs raw) := by
  have h5 : FilesNonempty (fsAppend (writePrep fs d names xs.length) (fpath d "clean")
      (dataRowOf ts_ms xs)) :=
    FilesNonempty_append _ _ _ (FilesNonempty_writePrep fs d names xs.length h)
  unfold ingestWrite
  cases raw with
  | absent => exact h5
  | notSeq => exact h5
  | seq rs =>
    show FilesNonempty (if rs.length == xs.length then _ else _)
    split
    · exact FilesNonempty_append _ _ _ h5
    · exact h5

/-! ## Ingest unfolding and validation -/

theorem ingest_eq_of_valid (fs : FS) (p : Payload) (ts_ms : ℚ) (xs : List (Option ℚ))
    (hts : p.ts = some ts_ms) (htemps : p.temps = .seq xs) (hxs : xs ≠ []) :
    ingest fs p =
      (.ok xs.length, ingestWrite fs (p.device.getD "unknown") p.names ts_ms xs p.raw) := by
  unfold ingest
  rw [hts, htemps]
  simp [hxs]

theorem ingest_eq_of_bad (fs : FS) (p : Payload)
    (h : p.ts = none ∨ p.temps = .absent ∨ p.temps = .notSeq ∨ p.temps = .seq []) :
    ingest fs p = (.bad, fs) := by
  unfold ingest
  rcases h with h | h | h | h
  · rw [h]
  · rw [h]; cases p.ts <;> simp
  · rw [h]; cases p.ts <;> simp
  · rw [h]; cases p.ts <;> simp

theorem ingest_cases (fs : FS) (p : Payload) :
    (ingest fs p = (.bad, fs) ∧
        (p.ts = none ∨ p.temps = .absent ∨ p.temps = .notSeq ∨ p.temps = .seq [])) ∨
      ∃ ts_ms xs, p.ts = some ts_ms ∧ p.temps = .seq xs ∧ xs ≠ [] ∧
        ingest fs p =
          (.ok xs.length, ingestWrite fs (p.device.getD "unknown") p.names ts_ms xs p.raw) := by
  cases hts : p.ts with
  | none => exact Or.inl ⟨ingest_eq_of_bad fs p (Or.inl hts), Or.inl rfl⟩
  | some ts_ms =>
    cases htemps : p.temps with
    | absent =>
      exact Or.inl ⟨ingest_eq_of_bad fs p (Or.inr (Or.inl htemps)), Or.inr (Or.inl rfl)⟩
    | notSeq =>
      exact Or.inl ⟨ingest_eq_of_bad fs p (Or.inr (Or.inr (Or.inl htemps))),
        Or.inr (Or.inr (Or.inl rfl))⟩
    | seq xs =>
      by_cases hxs : xs = []
      · subst hxs
        exact Or.inl ⟨ingest_eq_of_bad fs p (Or.inr (Or.inr (Or.inr htemps))),
          Or.inr (Or.inr (Or.inr rfl))⟩
      · exact Or.inr ⟨ts_ms, xs, rfl, rfl, hxs, ingest_eq_of_valid fs p ts_ms xs hts htemps hxs⟩

/-! ## Presence of the series files after an ingest -/

theorem writePrep_raw_isSome (fs : FS) (d : String) (names : Option (List String)) (n : ℕ) :
    (fsGet (writePrep fs d names n) (fpath d "raw")).isSome := by
  unfold writePrep
  cases hr : fsGet
      (ensureHeader
        (rotate_if_mismatch (rotate_if_mismatch fs (fpath d "clean") (2 + n)) (fpath d "raw") (2 + n))
        (fpath d "clean") (cleanHeader names n))
      (fpath d "raw") with
  | none => rw [fsGet_ensure_none _ _ _ hr]; rfl
  | some f => rw [fsGet_ensure_some _ _ _ f hr]; rfl

theorem ingestWrite_raw_isSome (fs : FS) (d : String) (names : Option (List String))
    (ts_ms : ℚ) (xs : List (Option ℚ)) (raw : JField) :
    (fsGet (ingestWrite fs d names ts_ms xs raw) (fpath d "raw")).isSome := by
  have h4 := writePrep_raw_isSome fs d names xs.length
  have h5 : (fsGet (fsAppend (writePrep fs d names xs.length) (fpath d "clean")
      (dataRowOf ts_ms xs)) (fpath d "raw")).isSome := by
    rw [fsGet_append, if_neg (Ne.symm (clean_ne_raw d))]
    exact h4
  unfold ingestWrite
  cases raw with
  | absent => exact h5
  | notSeq => exact h5
  | seq rs =>
    show ((fsGet (if rs.length == xs.length then _ else _) _).isSome : Prop)
    split
    · exact pres_append _ _ _ _ h5
    · exact h5

theorem ingestWrite_clean_isSome (fs : FS) (d : String) (names : Option (List String))
    (ts_ms : ℚ) (xs : List (Option ℚ)) (raw : JField) :
    (fsGet (ingestWrite fs d names ts_ms xs raw) (fpath d "clean")).isSome := by
  have h5 : (fsGet (fsAppend (writePrep fs d names xs.length) (fpath d "clean")
      (dataRowOf ts_ms xs)) (fpath d "clean")).isSome := by
    rw [fsGet_append, if_pos rfl]; rfl
  unfold ingestWrite
  cases raw with
  | absent => exact h5
  | notSeq => exact h5
  | seq rs =>
    show ((fsGet (if rs.length == xs.length then _ else _) _).isSome : Prop)
    split
    · exact pres_append _ _ _ _ h5
    · exact h5

theorem ingestWrite_pres (fs : FS) (d : String) (names : Option (List String))
    (ts_ms : ℚ) (xs : List (Option ℚ)) (raw : JField) (q : String)
    (h : (fsGet fs q).isSome) : (fsGet (ingestWrite fs d names ts_ms xs raw) q).isSome := by
  by_cases hq1 : q = fpath d "clean"
  · subst hq1; exact ingestWrite_clean_isSome fs d names ts_ms xs raw
  by_cases hq2 : q = fpath d "raw"
  · subst hq2; exact ingestWrite_raw_isSome fs d names ts_ms xs raw
  have hw : (fsGet (writePrep fs d names xs.length) q).isSome := by
    unfold writePrep
    exact pres_ensure _ _ _ _ (pres_ensure _ _ _ _
      (pres_rotate _ _ _ _ hq2 (pres_rotate _ _ _ _ hq1 h)))
  have h5 : (fsGet (fsAppend (writePrep fs d names xs.length) (fpath d "clean")
      (dataRowOf ts_ms xs)) q).isSome := pres_append _ _ _ _ hw
  unfold ingestWrite
  cases raw with
  | absent => exact h5
  | notSeq => exact h5
  | seq rs =>
    show ((fsGet (if rs.length == xs.length then _ else _) _).isSome : Prop)
    split
    · exact pres_append _ _ _ _ h5
    · exact h5

theorem ingest_pres (fs : FS) (p : Payload) (q : String)
    (h : (fsGet fs q).isSome) : (fsGet (ingest fs p).2 q).isSome := by
  rcases ingest_cases fs p with ⟨heq, _⟩ | ⟨ts_ms, xs, _, _, _, heq⟩ <;> rw [heq]
  · exact h
  · exact ingestWrite_pres fs _ p.names ts_ms xs p.raw q h

/-! ## Invariants of every reachable data directory -/

theorem namesSafe_spec (p : Payload) (h : namesSafe p = true) :
    ∀ nm ∈ p.names.getD [], nameSafe nm = true := by
  unfold namesSafe at h
  cases hn : p.names with
  | none => simp
  | some ns =>
    rw [hn] at h
    simpa [List.all_eq_true] using h

theorem FSGood_ingest (fs : FS) (p : Payload) (h : FSGood fs) (hsafe : namesSafe p = true) :
    FSGood (ingest fs p).2 := by
  rcases ingest_cases fs p with ⟨heq, _⟩ | ⟨ts_ms, xs, _, _, _, heq⟩ <;> rw [heq]
  · exact h
  · exact FSGood_ingestWrite fs _ p.names ts_ms xs p.raw h (namesSafe_spec p hsafe)

theorem FilesNonempty_ingest (fs : FS) (p : Payload) (h : FilesNonempty fs) :
    FilesNonempty (ingest fs p).2 := by
  rcases ingest_cases fs p with ⟨heq, _⟩ | ⟨ts_ms, xs, _, _, _, heq⟩ <;> rw [heq]
  · exact h
  · exact FilesNonempty_ingestWrite fs _ p.names ts_ms xs p.raw h

theorem FSGood_foldl (ps : List Payload) :
    ∀ fs, FSGood fs → (∀ p ∈ ps, namesSafe p = true) →
      FSGood (ps.foldl (fun fs p => (ingest fs p).2) fs) := by
  induction ps with
  | nil => intro fs h _; exact h
  | cons p ps ih =>
    intro fs h hsafe
    exact ih _ (FSGood_ingest fs p h (hsafe p (List.mem_cons_self p ps)))
      (fun q hq => hsafe q (List.mem_cons_of_mem p hq))

theorem FSGood_runIngests (ps : List Payload) (hsafe : ∀ p ∈ ps, namesSafe p = true) :
    FSGood (runIngests ps) :=
  FSGood_foldl ps [] (fun e he => absurd he (List.not_mem_nil e)) hsafe

theorem FilesNonempty_foldl (ps : List Payload) :
    ∀ fs, FilesNonempty fs →
      FilesNonempty (ps.foldl (fun fs p => (ingest fs p).2) fs) := by
  induction ps with
  | nil => intro fs h; exact h
  | cons p ps ih => intro fs h; exact ih _ (FilesNonempty_ingest fs p h)

theorem FilesNonempty_runIngests (ps : List Payload) : FilesNonempty (runIngests ps) :=
  FilesNonempty_foldl ps [] (fun e he => absurd he (List.not_mem_nil e))

theorem pres_foldl (ps : List Payload) :
    ∀ fs q, (fsGet fs q).isSome →
      (fsGet (ps.foldl (fun fs p => (ingest fs p).2) fs) q).isSome := by
  induction ps with
  | nil => intro fs q h; exact h
  | cons p ps ih => intro fs q h; exact ih _ q (ingest_pres fs p q h)

/-! ## Reset-trimming lemmas -/

theorem foldl_max_mem (l : List ℕ) : ∀ a : ℕ, l.foldl max a = a ∨ l.foldl max a ∈ l := by
  induction l with
  | nil => intro a; exact Or.inl rfl
  | cons b t ih =>
    intro a
    rcases ih (max a b) with h | h
    · rcases max_choice a b with hm | hm
      · exact Or.inl (by rw [List.foldl_cons, h, hm])
      · exact Or.inr (by rw [List.foldl_cons, h, hm]; exact List.mem_cons_self b t)
    · exact Or.inr (List.mem_cons_of_mem b h)

theorem le_foldl_max (l : List ℕ) :
    ∀ a : ℕ, a ≤ l.foldl max a ∧ ∀ x ∈ l, x ≤ l.foldl max a := by
  induction l with
  | nil => intro a; exact ⟨le_rfl, by simp⟩
  | cons b t ih =>
    intro a
    obtain ⟨h1, h2⟩ := ih (max a b)
    refine ⟨le_trans (le_max_left a b) h1, ?_⟩
    intro x hx
    rcases List.mem_cons.mp hx with hx | hx
    · rw [hx]; exact le_trans (le_max_right a b) h1
    · exact h2 x hx

theorem max?_spec (l : List ℕ) (m : ℕ) (h : l.max? = some m) :
    m ∈ l ∧ ∀ x ∈ l, x ≤ m := by
  cases l with
  | nil => exact absurd h (by simp [List.max?])
  | cons a t =>
    have hm : m = t.foldl max a := by
      have : some (t.foldl max a) = some m := h
      exact (Option.some.inj this).symm
    subst hm
    constructor
    · rcases foldl_max_mem t a with h1 | h1
      · rw [h1]; exact List.mem_cons_self a t
      · exact List.mem_cons_of_mem a h1
    · intro x hx
      rcases List.mem_cons.mp hx with hx | hx
      · rw [hx]; exact (le_foldl_max t a).1
      · exact (le_foldl_max t a).2 x hx

theorem max?_eq_none_iff' (l : List ℕ) : l.max? = none ↔ l = [] := by
  cases l <;> simp [List.max?]

theorem mem_decIdxs (ts : List ℚ) (i : ℕ) :
    i ∈ decIdxs ts ↔ i < ts.length ∧ 1 ≤ i ∧ ts.getD i 0 < ts.getD (i - 1) 0 := by
  unfold decIdxs
  rw [List.mem_filter, List.mem_range]
  simp [and_assoc]

theorem lastDecIdx_spec (ts : List ℚ) (L : ℕ) (h : lastDecIdx ts = some L) :
    (L < ts.length ∧ 1 ≤ L ∧ ts.getD L 0 < ts.getD (L - 1) 0) ∧
      ∀ i, i < ts.length → 1 ≤ i → ts.getD i 0 < ts.getD (i - 1) 0 → i ≤ L := by
  obtain ⟨hmem, hbound⟩ := max?_spec _ L h
  refine ⟨(mem_decIdxs ts L).mp hmem, ?_⟩
  intro i h1 h2 h3
  exact hbound i ((mem_decIdxs ts i).mpr ⟨h1, h2, h3⟩)

theorem lastDecIdx_none (ts : List ℚ) (h : lastDecIdx ts = none) :
    ∀ i, i < ts.length → 1 ≤ i → ¬ts.getD i 0 < ts.getD (i - 1) 0 := by
  intro i h1 h2 h3
  have : i ∈ decIdxs ts := (mem_decIdxs ts i).mpr ⟨h1, h2, h3⟩
  rw [(max?_eq_none_iff' _).mp h] at this
  exact absurd this (List.not_mem_nil i)

theorem getD_eq_get (ts : List ℚ) (i : ℕ) (h : i < ts.length) : ts.getD i 0 = ts[i] :=
  List.getD_eq_getElem ts 0 h

/-- The rows kept by reset trimming carry a nondecreasing time axis: every
strict decrease of the axis lies at an index `≤ last`, and only indices
`> last` survive. -/
theorem trim_reset_nondecreasing (rows : List DRow) :
    List.Chain' (· ≤ ·) ((trim_reset true rows).map Prod.fst) := by
  unfold trim_reset
  by_cases hlen : 1 < rows.length
  · rw [if_pos (by simp [hlen])]
    cases hL : lastDecIdx (rows.map Prod.fst) with
    | none =>
      rw [List.chain'_iff_get]
      intro i hi
      simp only [List.length_map] at hi
      have hnd := lastDecIdx_none _ hL (i + 1)
        (by simp only [List.length_map]; omega) (by omega)
      rw [getD_eq_get _ _ (by simp; omega), getD_eq_get _ _ (by simp; omega)] at hnd
      simp only [Nat.add_sub_cancel] at hnd
      simp only [List.get_eq_getElem, List.getElem_map]
      by_contra hcon
      push_neg at hcon
      exact hnd (by simpa using hcon)
    | some L =>
      rw [List.chain'_iff_get]
      intro i hi
      have hspec := (lastDecIdx_spec _ L hL).2
      simp only [List.length_map, List.length_drop] at hi
      have h1 : L + 1 + (i + 1) < rows.length := by omega
      have hnd := hspec (L + 1 + (i + 1)) (by simp only [List.length_map]; omega) (by omega)
      rw [getD_eq_get _ _ (by simp only [List.length_map]; omega),
        getD_eq_get _ _ (by simp only [List.length_map]; omega)] at hnd
      simp only [List.get_eq_getElem, List.getElem_map, List.getElem_drop]
      by_contra hcon
      push_neg at hcon
      have : L + 1 + (i + 1) ≤ L := hnd (by
        simp only [List.getElem_map]
        have he : L + 1 + (i + 1) - 1 = L + 1 + i := by omega
        simp only [he]
        exact hcon)
      omega
  · rw [if_neg (by simp [hlen])]
    cases rows with
    | nil => simp
    | cons r t =>
      cases t with
      | nil => simp
      | cons r' t' => simp at hlen

/-- When a decrease exists, trimming keeps exactly the rows after the last
decrease index. -/
theorem trim_reset_drop (rows : List DRow) (L : ℕ)
    (h : lastDecIdx (rows.map Prod.fst) = some L) :
    trim_reset true rows = rows.drop (L + 1) := by
  have hspec := (lastDecIdx_spec _ L h).1
  have hlen : 1 < rows.length := by
    simp only [List.length_map] at hspec
    omega
  unfold trim_reset
  rw [if_pos (by simp [hlen]), h]

/-! ## Windowing lemmas -/

theorem windowKeep_mem (mins : ℚ) (rows : List DRow) (r : DRow) :
    r ∈ windowKeep mins rows ↔ r ∈ rows ∧ now_s rows - mins * 60 ≤ r.1 := by
  unfold windowKeep
  rw [List.mem_filter]
  simp

theorem windowKeep_sublist (mins : ℚ) (rows : List DRow) :
    (windowKeep mins rows).Sublist rows := List.filter_sublist rows

theorem now_s_getLast (rows : List DRow) (hne : rows ≠ []) :
    now_s rows = (rows.getLast hne).1 := by
  unfold now_s
  rw [List.getLast?_map, List.getLast?_eq_getLast rows hne]
  rfl

theorem last_mem_windowKeep (mins : ℚ) (rows : List DRow) (hm : 0 ≤ mins) (hne : rows ≠ []) :
    rows.getLast hne ∈ windowKeep mins rows := by
  rw [windowKeep_mem]
  refine ⟨List.getLast_mem hne, ?_⟩
  rw [now_s_getLast rows hne]
  have h60 : 0 ≤ mins * 60 := by positivity
  linarith

theorem foldl_min_eq (t : List ℚ) : ∀ a : ℚ, (∀ x ∈ t, a ≤ x) → t.foldl min a = a := by
  induction t with
  | nil => intro a _; rfl
  | cons b t ih =>
    intro a h
    rw [List.foldl_cons, min_eq_left (h b (List.mem_cons_self b t))]
    exact ih a (fun x hx => h x (List.mem_cons_of_mem b hx))

theorem min?_of_chain (ks : List ℚ) (hchain : List.Chain' (· ≤ ·) ks) (hne : ks ≠ []) :
    ks.min? = some (ks.head hne) := by
  cases ks with
  | nil => exact absurd rfl hne
  | cons a t =>
    show some (t.foldl min a) = some a
    have hpw := List.chain'_iff_pairwise.mp hchain
    rw [List.pairwise_cons] at hpw
    rw [foldl_min_eq t a hpw.1]

theorem windowKeep_chain (mins : ℚ) (rows : List DRow)
    (hchain : List.Chain' (· ≤ ·) (rows.map Prod.fst)) :
    List.Chain' (· ≤ ·) ((windowKeep mins rows).map Prod.fst) :=
  hchain.sublist ((windowKeep_sublist mins rows).map Prod.fst)

/-- On a series whose kept time axis is nondecreasing and nonempty, the
re-zeroed time axis starts at 0. -/
theorem rezero_head_zero (kept : List DRow) (hne : kept ≠ [])
    (hchain : List.Chain' (· ≤ ·) (kept.map Prod.fst)) :
    (rezeroTimes kept).head? = some 0 := by
  have hmapne : kept.map Prod.fst ≠ [] := by
    cases kept with
    | nil => exact absurd rfl hne
    | cons a t => simp
  have hmin : minTime kept = (kept.head hne).1 := by
    unfold minTime
    rw [min?_of_chain (kept.map Prod.fst) hchain hmapne]
    rw [List.head_map]
    rfl
  unfold rezeroTimes
  rw [List.head?_map]
  cases kept with
  | nil => exact absurd rfl hne
  | cons a t =>
    simp only [List.head?_cons, Option.map_some]
    rw [hmin]
    simp

/-! ## Rename-dict lemmas -/

theorem dictGetD_nil (k : String) : dictGetD [] k = k := rfl

theorem dict_repl_other (k v k' : String) (h : k' ≠ k) :
    ∀ m : List (String × String),
      dictGetD (m.map (fun e => if e.1 == k then (k, v) else e)) k' = dictGetD m k' := by
  intro m
  induction m with
  | nil => rfl
  | cons e m ih =>
    rw [List.map_cons]
    by_cases hek : e.1 = k
    · rw [if_pos (by simp [hek])]
      unfold dictGetD
      rw [List.find?_cons_of_neg _ (by simp; exact fun hh => h hh.symm),
        List.find?_cons_of_neg _ (by simp [hek]; exact fun hh => h hh.symm)]
      exact ih
    · rw [if_neg (by simp [hek])]
      by_cases hek' : e.1 = k'
      · unfold dictGetD
        rw [List.find?_cons_of_pos _ (by simp [hek']), List.find?_cons_of_pos _ (by simp [hek'])]
      · unfold dictGetD
        rw [List.find?_cons_of_neg _ (by simp [hek']), List.find?_cons_of_neg _ (by simp [hek'])]
        exact ih

theorem dict_repl_self (k v : String) :
    ∀ m : List (String × String), m.any (fun e => e.1 == k) = true →
      dictGetD (m.map (fun e => if e.1 == k then (k, v) else e)) k = v := by
  intro m
  induction m with
  | nil => intro h; simp at h
  | cons e m ih =>
    intro hany
    rw [List.map_cons]
    by_cases hek : e.1 = k
    · rw [if_pos (by simp [hek])]
      unfold dictGetD
      rw [List.find?_cons_of_pos _ (by simp)]
      rfl
    · rw [if_neg (by simp [hek])]
      unfold dictGetD
      rw [List.find?_cons_of_neg _ (by simp [hek])]
      have hany' : m.any (fun e => e.1 == k) = true := by
        rw [List.any_cons] at hany
        rcases Bool.or_eq_true_iff.mp hany with hh | hh
        · exact absurd (beq_iff_eq.mp hh) hek
        · exact hh
      exact ih hany'

theorem dict_app_self (k v : String) :
    ∀ m : List (String × String), m.any (fun e => e.1 == k) = false →
      dictGetD (m ++ [(k, v)]) k = v := by
  intro m
  induction m with
  | nil => intro _; simp [dictGetD, List.find?]
  | cons e m ih =>
    intro hany
    rw [List.any_cons] at hany
    simp only [Bool.or_eq_false_iff] at hany
    rw [List.cons_append]
    unfold dictGetD
    rw [List.find?_cons_of_neg _ (by simp; exact fun hh => by simp [hh] at hany)]
    exact ih hany.2

theorem dict_app_other (k v k' : String) (h : k' ≠ k) :
    ∀ m : List (String × String), dictGetD (m ++ [(k, v)]) k' = dictGetD m k' := by
  intro m
  induction m with
  | nil =>
    show dictGetD [(k, v)] k' = dictGetD [] k'
    unfold dictGetD
    rw [List.find?_cons_of_neg _ (by simp; exact fun hh => h hh.symm)]
  | cons e m ih =>
    rw [List.cons_append]
    by_cases hek : e.1 = k'
    · unfold dictGetD
      rw [List.find?_cons_of_pos _ (by simp [hek]), List.find?_cons_of_pos _ (by simp [hek])]
    · unfold dictGetD
      rw [List.find?_cons_of_neg _ (by simp [hek]), List.find?_cons_of_neg _ (by simp [hek])]
      exact ih

theorem dictGetD_set (m : List (String × String)) (k v k' : String) :
    dictGetD (dictSet m k v) k' = if k' = k then v else dictGetD m k' := by
  unfold dictSet
  by_cases hany : m.any (fun e => e.1 == k) = true
  · rw [if_pos hany]
    by_cases h : k' = k
    · subst h; rw [if_pos rfl]; exact dict_repl_self k' v m hany
    · rw [if_neg h]; exact dict_repl_other k v k' h m
  · rw [if_neg hany]
    by_cases h : k' = k
    · subst h
      rw [if_pos rfl]
      exact dict_app_self k' v m (Bool.eq_false_iff.mpr hany)
    · rw [if_neg h]; exact dict_app_other k v k' h m

/-! ## `buildMap` lookup characterization -/

theorem foldl_step_skip (P : String → Bool) (g : ℕ → String → String)
    (l : List (ℕ × String)) (c : String) (hno : ∀ e ∈ l, e.2 ≠ c) :
    ∀ acc, dictGetD
      (l.foldl (fun m ic => if P ic.2 then dictSet m ic.2 (g ic.1 ic.2) else m) acc) c =
      dictGetD acc c := by
  induction l with
  | nil => intro acc; rfl
  | cons e t ih =>
    intro acc
    rw [List.foldl_cons]
    have hne : e.2 ≠ c := hno e (List.mem_cons_self e t)
    have ht : ∀ e' ∈ t, e'.2 ≠ c := fun e' he' => hno e' (List.mem_cons_of_mem e he')
    rw [ih ht]
    by_cases hP : P e.2 = true
    · rw [if_pos hP, dictGetD_set, if_neg (fun hh => hne hh.symm)]
    · rw [if_neg hP]

theorem foldl_step_mem (P : String → Bool) (g : ℕ → String → String)
    (l : List (ℕ × String)) (i : ℕ) (c : String)
    (hmem : (i, c) ∈ l) (hnodup : (l.map Prod.snd).Nodup) :
    ∀ acc, dictGetD
      (l.foldl (fun m ic => if P ic.2 then dictSet m ic.2 (g ic.1 ic.2) else m) acc) c =
      if P c then g i c else dictGetD acc c := by
  induction l with
  | nil => exact absurd hmem (List.not_mem_nil _)
  | cons e t ih =>
    intro acc
    rw [List.foldl_cons]
    rw [List.map_cons, List.nodup_cons] at hnodup
    rcases List.mem_cons.mp hmem with heq | hmem'
    · have he2 : e.2 = c := by rw [← heq]
      have he1 : e.1 = i := by rw [← heq]
      have hno : ∀ e' ∈ t, e'.2 ≠ c := by
        intro e' he' hc
        exact hnodup.1 (he2 ▸ hc ▸ List.mem_map_of_mem Prod.snd he')
      rw [foldl_step_skip P g t c hno]
      by_cases hP : P c = true
      · rw [if_pos (by rw [he2]; exact hP), if_pos hP, dictGetD_set, if_pos (by rw [he2]),
          he1, he2]
      · rw [if_neg (by rw [he2]; exact hP), if_neg hP]
    · have hne : e.2 ≠ c := by
        intro hc
        have : c ∈ t.map Prod.snd := List.mem_map_of_mem Prod.snd hmem'
        rw [← hc] at this
        exact hnodup.1 this
      rw [ih hmem' hnodup.2]
      by_cases hP : P e.2 = true
      · rw [if_pos hP]
        by_cases hPc : P c = true
        · rw [if_pos hPc, if_pos hPc]
        · rw [if_neg hPc, if_neg hPc, dictGetD_set, if_neg (fun hh => hne hh.symm)]
      · rw [if_neg hP]

theorem foldl_all_skip (g : ℕ → String → String)
    (l : List (ℕ × String)) (c : String) (hno : ∀ e ∈ l, e.2 ≠ c) :
    ∀ acc, dictGetD (l.foldl (fun m ic => dictSet m ic.2 (g ic.1 ic.2)) acc) c =
      dictGetD acc c := by
  induction l with
  | nil => intro acc; rfl
  | cons e t ih =>
    intro acc
    rw [List.foldl_cons]
    have hne : e.2 ≠ c := hno e (List.mem_cons_self e t)
    have ht : ∀ e' ∈ t, e'.2 ≠ c := fun e' he' => hno e' (List.mem_cons_of_mem e he')
    rw [ih ht, dictGetD_set, if_neg (fun hh => hne hh.symm)]

theorem foldl_all_mem (g : ℕ → String → String)
    (l : List (ℕ × String)) (i : ℕ) (c : String)
    (hmem : (i, c) ∈ l) (hnodup : (l.map Prod.snd).Nodup) :
    ∀ acc, dictGetD (l.foldl (fun m ic => dictSet m ic.2 (g ic.1 ic.2)) acc) c = g i c := by
  induction l with
  | nil => exact absurd hmem (List.not_mem_nil _)
  | cons e t ih =>
    intro acc
    rw [List.foldl_cons]
    rw [List.map_cons, List.nodup_cons] at hnodup
    rcases List.mem_cons.mp hmem with heq | hmem'
    · have he2 : e.2 = c := by rw [← heq]
      have he1 : e.1 = i := by rw [← heq]
      have hno : ∀ e' ∈ t, e'.2 ≠ c := by
        intro e' he' hc
        exact hnodup.1 (he2 ▸ hc ▸ List.mem_map_of_mem Prod.snd he')
      rw [foldl_all_skip g t c hno, dictGetD_set, if_pos (by rw [he2]), he1, he2]
    · exact ih hmem' hnodup.2 _

/-! ## `renamedCols` characterization -/

theorem rename_map_usable (nameOv : Option (List String)) (valCols : List String)
    (h : namesUsable nameOv valCols = true) :
    rename_map nameOv valCols =
      buildMap isTPat (fun i _ => (nameOv.getD []).getD i "" ++ "_C") valCols := by
  unfold rename_map
  rw [if_pos h]

theorem rename_map_sensor (nameOv : Option (List String)) (valCols : List String)
    (h : namesUsable nameOv valCols = false) (hall : valCols.all isTPat = true) :
    rename_map nameOv valCols =
      buildMapAll (fun i _ => "Sensor" ++ decRepr (i + 1) ++ "_C") valCols := by
  unfold rename_map
  rw [if_neg (by simp [h]), if_pos hall]

theorem rename_map_empty (nameOv : Option (List String)) (valCols : List String)
    (h : namesUsable nameOv valCols = false) (hall : valCols.all isTPat = false) :
    rename_map nameOv valCols = [] := by
  unfold rename_map
  rw [if_neg (by simp [h]), if_neg (by simp [hall])]

theorem renamedCols_usable (ns valCols : List String)
    (husable : namesUsable (some ns) valCols = true) (hnodup : valCols.Nodup) :
    renamedCols (some ns) valCols =
      List.zipWith (fun c nm => if isTPat c then nm ++ "_C" else c) valCols ns := by
  have hlen : ns.length = valCols.length := by
    unfold namesUsable at husable
    simp only [Bool.and_eq_true, beq_iff_eq] at husable
    exact husable.2
  apply List.ext_getElem
  · simp [renamedCols, List.length_zipWith, hlen]
  · intro i h1 h2
    simp only [renamedCols, List.length_map] at h1
    simp only [renamedCols, List.getElem_map, List.getElem_zipWith]
    simp only [rename_map_usable (some ns) valCols husable]
    unfold buildMap
    have hmem : (i, valCols[i]) ∈ valCols.enum := by
      rw [List.mem_enum_iff_getElem?]
      exact List.getElem?_eq_getElem h1
    have hnd : (valCols.enum.map Prod.snd).Nodup := by
      rw [List.enum_map_snd]; exact hnodup
    rw [foldl_step_mem isTPat (fun i _ => ((some ns : Option (List String)).getD []).getD i "" ++ "_C")
      valCols.enum i valCols[i] hmem hnd []]
    by_cases hP : isTPat valCols[i] = true
    · rw [if_pos hP, if_pos hP]
      show (ns.getD i "") ++ "_C" = ns[i] ++ "_C"
      rw [List.getD_eq_getElem ns "" (by omega)]
    · rw [if_neg hP, if_neg hP, dictGetD_nil]

theorem renamedCols_sensor (nameOv : Option (List String)) (valCols : List String)
    (hnot : namesUsable nameOv valCols = false)
    (hall : valCols.all isTPat = true) (hnodup : valCols.Nodup) :
    renamedCols nameOv valCols =
      (List.range valCols.length).map (fun i => "Sensor" ++ decRepr (i + 1) ++ "_C") := by
  apply List.ext_getElem
  · simp [renamedCols]
  · intro i h1 h2
    simp only [renamedCols, List.length_map] at h1
    simp only [renamedCols, List.getElem_map, List.getElem_range]
    simp only [rename_map_sensor nameOv valCols hnot hall]
    unfold buildMapAll
    have hmem : (i, valCols[i]) ∈ valCols.enum := by
      rw [List.mem_enum_iff_getElem?]
      exact List.getElem?_eq_getElem h1
    have hnd : (valCols.enum.map Prod.snd).Nodup := by
      rw [List.enum_map_snd]; exact hnodup
    rw [foldl_all_mem (fun i _ => "Sensor" ++ decRepr (i + 1) ++ "_C")
      valCols.enum i valCols[i] hmem hnd []]

theorem renamedCols_id (nameOv : Option (List String)) (valCols : List String)
    (hnot : namesUsable nameOv valCols = false)
    (hnotall : valCols.all isTPat = false) :
    renamedCols nameOv valCols = valCols := by
  unfold renamedCols
  rw [rename_map_empty nameOv valCols hnot hnotall]
  simp [dictGetD_nil]

/-! ## Row counting under `noRotate` -/

theorem rotate_noop (fs : FS) (path : String) (E : ℕ) (h : noRotate fs path E) :
    rotate_if_mismatch fs path E = fs := by
  cases hg : fsGet fs path with
  | none => exact rotate_of_none fs path E hg
  | some f => exact rotate_of_eq fs path E f hg (h f hg)

theorem FileGood_widthsOk (f : File) (h : FileGood f) : widthsOk f = true := by
  cases f with
  | nil => exact absurd h (by simp [FileGood])
  | cons hd t =>
    unfold widthsOk
    rw [List.all_eq_true]
    intro r hr
    simp only [List.tail_cons] at hr
    simpa using h.2.2 r hr

theorem writePrep_noRotate (fs : FS) (d : String) (names : Option (List String)) (n : ℕ)
    (hclean : noRotate fs (fpath d "clean") (2 + n))
    (hraw : noRotate fs (fpath d "raw") (2 + n)) :
    writePrep fs d names n =
      ensureHeader (ensureHeader fs (fpath d "clean") (cleanHeader names n))
        (fpath d "raw") (rawHeader names n) := by
  unfold writePrep
  rw [rotate_noop fs (fpath d "clean") (2 + n) hclean]
  rw [rotate_noop fs (fpath d "raw") (2 + n) hraw]

theorem ensure_dataRows_self (fs : FS) (path : String) (hdr : CsvRow) :
    dataRows (ensureHeader fs path hdr) path = dataRows fs path := by
  unfold dataRows
  cases hg : fsGet fs path with
  | none => rw [fsGet_ensure_none fs path hdr hg]; rfl
  | some f => rw [fsGet_ensure_some fs path hdr f hg]

theorem dataRows_append (fs : FS) (path : String) (row : CsvRow)
    (hpresent : ∃ f, fsGet fs path = some f ∧ f ≠ []) :
    dataRows (fsAppend fs path row) path = dataRows fs path + 1 := by
  unfold dataRows
  rw [fsGet_append, if_pos rfl]
  obtain ⟨f, hf, hne⟩ := hpresent
  rw [hf]
  simp only [Option.getD_some, List.length_append, List.length_cons, List.length_nil]
  have : 1 ≤ f.length := List.length_pos.mpr hne
  omega

theorem dataRows_other (fs : FS) (path q : String) (row : CsvRow) (h : q ≠ path) :
    dataRows (fsAppend fs path row) q = dataRows fs q := by
  unfold dataRows
  rw [fsGet_append, if_neg h]

/-- Equations unfolding `ingestWrite` per shape of the raw field. -/
theorem ingestWrite_absent_eq (fs : FS) (d : String) (names : Option (List String))
    (ts_ms : ℚ) (xs : List (Option ℚ)) :
    ingestWrite fs d names ts_ms xs .absent =
      fsAppend (writePrep fs d names xs.length) (fpath d "clean") (dataRowOf ts_ms xs) := rfl

theorem ingestWrite_notSeq_eq (fs : FS) (d : String) (names : Option (List String))
    (ts_ms : ℚ) (xs : List (Option ℚ)) :
    ingestWrite fs d names ts_ms xs .notSeq =
      fsAppend (writePrep fs d names xs.length) (fpath d "clean") (dataRowOf ts_ms xs) := rfl

theorem ingestWrite_seq_eq (fs : FS) (d : String) (names : Option (List String))
    (ts_ms : ℚ) (xs rs : List (Option ℚ)) :
    ingestWrite fs d names ts_ms xs (.seq rs) =
      if rs.length == xs.length then
        fsAppend
          (fsAppend (writePrep fs d names xs.length) (fpath d "clean") (dataRowOf ts_ms xs))
          (fpath d "raw") (dataRowOf ts_ms rs)
      else fsAppend (writePrep fs d names xs.length) (fpath d "clean") (dataRowOf ts_ms xs) := rfl

/-- Row-count behaviour of one validated write when neither series file gets
rotated: the clean data-row count rises by one; the raw one rises by one
exactly when the raw array is a sequence of the right length, and is
unchanged otherwise. -/
theorem ingestWrite_dataRows (fs : FS) (d : String) (names : Option (List String))
    (ts_ms : ℚ) (xs : List (Option ℚ)) (raw : JField) (hxs : xs ≠ [])
    (hclean : noRotate fs (fpath d "clean") (2 + xs.length))
    (hraw : noRotate fs (fpath d "raw") (2 + xs.length)) :
    (dataRows (ingestWrite fs d names ts_ms xs raw) (fpath d "clean") =
      dataRows fs (fpath d "clean") + 1) ∧
    (dataRows (ingestWrite fs d names ts_ms xs raw) (fpath d "raw") =
      dataRows fs (fpath d "raw") + 1 ↔ ∃ rs, raw = .seq rs ∧ rs.length = xs.length) ∧
    ((∀ rs, raw = .seq rs → rs.length ≠ xs.length) →
      dataRows (ingestWrite fs d names ts_ms xs raw) (fpath d "raw") =
        dataRows fs (fpath d "raw")) := by
  have hcr := clean_ne_raw d
  have hprep := writePrep_noRotate fs d names xs.length hclean hraw
  -- the clean file after writePrep: present, nonempty, same data-row count as before
  have hcleanfile : (∃ f, fsGet (writePrep fs d names xs.length) (fpath d "clean") = some f ∧
      f ≠ []) ∧
      dataRows (writePrep fs d names xs.length) (fpath d "clean") =
        dataRows fs (fpath d "clean") := by
    rw [hprep]
    cases hg : fsGet fs (fpath d "clean") with
    | none =>
      have h1 := fsGet_ensure_none fs (fpath d "clean") (cleanHeader names xs.length) hg
      have h2 : fsGet (ensureHeader (ensureHeader fs (fpath d "clean") (cleanHeader names xs.length))
          (fpath d "raw") (rawHeader names xs.length)) (fpath d "clean") =
          some [cleanHeader names xs.length] := by
        rw [fsGet_ensure_other _ _ _ _ hcr]; exact h1
      refine ⟨⟨[cleanHeader names xs.length], h2, by simp⟩, ?_⟩
      unfold dataRows
      rw [h2, hg]
      rfl
    | some f =>
      have hfne : f ≠ [] := by
        intro hnil
        have hlc := hclean f hg
        rw [hnil] at hlc
        simp [lineCols] at hlc
        omega
      have h1 := fsGet_ensure_some fs (fpath d "clean") (cleanHeader names xs.length) f hg
      have h2 : fsGet (ensureHeader (ensureHeader fs (fpath d "clean") (cleanHeader names xs.length))
          (fpath d "raw") (rawHeader names xs.length)) (fpath d "clean") = some f := by
        rw [fsGet_ensure_other _ _ _ _ hcr]; exact h1
      refine ⟨⟨f, h2, hfne⟩, ?_⟩
      unfold dataRows
      rw [h2, hg]
  -- the raw file after writePrep
  have hrawfile : (∃ f, fsGet (writePrep fs d names xs.length) (fpath d "raw") = some f ∧
      f ≠ []) ∧
      dataRows (writePrep fs d names xs.length) (fpath d "raw") =
        dataRows fs (fpath d "raw") := by
    rw [hprep]
    have hg0 : fsGet (ensureHeader fs (fpath d "clean") (cleanHeader names xs.length))
        (fpath d "raw") = fsGet fs (fpath d "raw") :=
      fsGet_ensure_other _ _ _ _ (Ne.symm hcr)
    cases hg : fsGet fs (fpath d "raw") with
    | none =>
      have h1 : fsGet (ensureHeader (ensureHeader fs (fpath d "clean") (cleanHeader names xs.length))
          (fpath d "raw") (rawHeader names xs.length)) (fpath d "raw") =
          some [rawHeader names xs.length] :=
        fsGet_ensure_none _ _ _ (by rw [hg0]; exact hg)
      refine ⟨⟨[rawHeader names xs.length], h1, by simp⟩, ?_⟩
      unfold dataRows
      rw [h1, hg]
      rfl
    | some f =>
      have hfne : f ≠ [] := by
        intro hnil
        have hlc := hraw f hg
        rw [hnil] at hlc
        simp [lineCols] at hlc
        omega
      have h1 : fsGet (ensureHeader (ensureHeader fs (fpath d "clean") (cleanHeader names xs.length))
          (fpath d "raw") (rawHeader names xs.length)) (fpath d "raw") = some f :=
        fsGet_ensure_some _ _ _ f (by rw [hg0]; exact hg)
      refine ⟨⟨f, h1, hfne⟩, ?_⟩
      unfold dataRows
      rw [h1, hg]
  have hclean5 : dataRows (fsAppend (writePrep fs d names xs.length) (fpath d "clean")
      (dataRowOf ts_ms xs)) (fpath d "clean") = dataRows fs (fpath d "clean") + 1 := by
    rw [dataRows_append _ _ _ hcleanfile.1, hcleanfile.2]
  have hraw5get : fsGet (fsAppend (writePrep fs d names xs.length) (fpath d "clean")
      (dataRowOf ts_ms xs)) (fpath d "raw") =
      fsGet (writePrep fs d names xs.length) (fpath d "raw") := by
    rw [fsGet_append, if_neg (Ne.symm hcr)]
  have hraw5 : dataRows (fsAppend (writePrep fs d names xs.length) (fpath d "clean")
      (dataRowOf ts_ms xs)) (fpath d "raw") = dataRows fs (fpath d "raw") := by
    unfold dataRows
    rw [hraw5get]
    exact hrawfile.2
  cases raw with
  | absent =>
    rw [ingestWrite_absent_eq]
    refine ⟨hclean5, ?_, fun _ => hraw5⟩
    rw [hraw5]
    constructor
    · intro h; omega
    · rintro ⟨rs, hrs, _⟩; cases hrs
  | notSeq =>
    rw [ingestWrite_notSeq_eq]
    refine ⟨hclean5, ?_, fun _ => hraw5⟩
    rw [hraw5]
    constructor
    · intro h; omega
    · rintro ⟨rs, hrs, _⟩; cases hrs
  | seq rs =>
    rw [ingestWrite_seq_eq]
    by_cases hlen : rs.length = xs.length
    · rw [if_pos (by simp [hlen])]
      have hrawpres : ∃ f, fsGet (fsAppend (writePrep fs d names xs.length) (fpath d "clean")
          (dataRowOf ts_ms xs)) (fpath d "raw") = some f ∧ f ≠ [] := by
        rw [hraw5get]
        exact hrawfile.1
      refine ⟨?_, ?_, ?_⟩
      · rw [dataRows_other _ _ _ _ hcr]
        exact hclean5
      · rw [dataRows_append _ _ _ hrawpres, hraw5]
        simp [hlen]
      · intro hno
        exact absurd hlen (hno rs rfl)
    · rw [if_neg (by simp [hlen])]
      refine ⟨hclean5, ?_, fun _ => hraw5⟩
      rw [hraw5]
      constructor
      · intro h; omega
      · rintro ⟨rs', hrs', hlen'⟩
        have hre : rs' = rs := by injection hrs'.symm
        subst hre
        exact absurd hlen' hlen

theorem ingestWrite_clean_last (fs : FS) (d : String) (names : Option (List String))
    (ts_ms : ℚ) (xs : List (Option ℚ)) (raw : JField) :
    ∃ f, fsGet (ingestWrite fs d names ts_ms xs raw) (fpath d "clean") = some f ∧
      f.getLast? = some (dataRowOf ts_ms xs) := by
  have h5 : fsGet (fsAppend (writePrep fs d names xs.length) (fpath d "clean")
      (dataRowOf ts_ms xs)) (fpath d "clean") =
      some ((fsGet (writePrep fs d names xs.length) (fpath d "clean")).getD [] ++
        [dataRowOf ts_ms xs]) := by
    rw [fsGet_append, if_pos rfl]
  cases raw with
  | absent => rw [ingestWrite_absent_eq]; exact ⟨_, h5, List.getLast?_concat _⟩
  | notSeq => rw [ingestWrite_notSeq_eq]; exact ⟨_, h5, List.getLast?_concat _⟩
  | seq rs =>
    rw [ingestWrite_seq_eq]
    split
    · refine ⟨(fsGet (writePrep fs d names xs.length) (fpath d "clean")).getD [] ++
        [dataRowOf ts_ms xs], ?_, List.getLast?_concat _⟩
      rw [fsGet_append, if_neg (clean_ne_raw d)]
      exact h5
    · exact ⟨_, h5, List.getLast?_concat _⟩

theorem runIngests_split (ps1 : List Payload) (p : Payload) (ps2 : List Payload) :
    runIngests (ps1 ++ p :: ps2) =
      ps2.foldl (fun fs p => (ingest fs p).2) (ingest (runIngests ps1) p).2 := by
  unfold runIngests
  rw [List.foldl_append, List.foldl_cons]

/-! ## The claims -/

/-- Claim C1 (counterexample to the claim as stated): with reset trimming
enabled, the code does NOT keep the row at which the decreased value first
appears.  For time axis `[10,20,30,5,15]`, `df.loc[last+1:]` keeps only
`[15]`, re-zeroed to `[0]` — not `[5,15]` re-zeroed to `[0,10]` as the
claim states. -/
theorem claim1_counterexample :
    (trim_reset true [((10:ℚ), ([] : List (Option ℚ))), (20, []), (30, []), (5, []),
        (15, [])]).map Prod.fst = [15] ∧
    (trim_reset true [((10:ℚ), ([] : List (Option ℚ))), (20, []), (30, []), (5, []),
        (15, [])]).map Prod.fst ≠ [5, 15] ∧
    rezeroTimes (windowKeep 15 (trim_reset true [((10:ℚ), ([] : List (Option ℚ))), (20, []),
        (30, []), (5, []), (15, [])])) = [0] ∧
    rezeroTimes (windowKeep 15 (trim_reset true [((10:ℚ), ([] : List (Option ℚ))), (20, []),
        (30, []), (5, []), (15, [])])) ≠ [0, 10] := by
  have h1 : trim_reset true [((10:ℚ), ([] : List (Option ℚ))), (20, []), (30, []), (5, []),
      (15, [])] = [(15, [])] := rfl
  rw [h1]
  refine ⟨rfl, by norm_num, ?_, ?_⟩
  · norm_num [rezeroTimes, windowKeep, now_s, minTime, List.filter, List.min?]
  · rw [show rezeroTimes (windowKeep 15 [((15:ℚ), ([] : List (Option ℚ)))]) = [0] by
      norm_num [rezeroTimes, windowKeep, now_s, minTime, List.filter, List.min?]]
    norm_num

/-- Claim C1 (amended): with reset trimming enabled, when the time axis has
a strictly-decreasing step the series is truncated to the rows strictly
after the row at which the last decreased value first appears (that row is
dropped, `df.loc[last+1:]`); the kept time axis has no decreasing step; for
time axis `[10,20,30,5,15]` the trimmed series is `[15]`, re-zeroed to
`[0]`. -/
theorem claim1_trim_reset :
    (∀ rows : List DRow, List.Chain' (· ≤ ·) ((trim_reset true rows).map Prod.fst)) ∧
    (∀ (rows : List DRow) (L : ℕ), lastDecIdx (rows.map Prod.fst) = some L →
      trim_reset true rows = rows.drop (L + 1)) ∧
    trim_reset true [((10:ℚ), ([] : List (Option ℚ))), (20, []), (30, []), (5, []),
      (15, [])] = [(15, [])] ∧
    rezeroTimes (windowKeep 15 (trim_reset true [((10:ℚ), ([] : List (Option ℚ))), (20, []),
      (30, []), (5, []), (15, [])])) = [0] := by
  refine ⟨trim_reset_nondecreasing, trim_reset_drop, rfl, ?_⟩
  rw [show trim_reset true [((10:ℚ), ([] : List (Option ℚ))), (20, []), (30, []), (5, []),
      (15, [])] = [(15, [])] from rfl]
  norm_num [rezeroTimes, windowKeep, now_s, minTime, List.filter, List.min?]

/-- Witness for C1: on the concrete series `[10,20,30,5,15]` the last
decrease is at index 3 and trimming drops the first four rows. -/
theorem claim1_witness :
    lastDecIdx (([((10:ℚ), ([] : List (Option ℚ))), (20, []), (30, []), (5, []),
        (15, [])]).map Prod.fst) = some 3 ∧
    trim_reset true [((10:ℚ), ([] : List (Option ℚ))), (20, []), (30, []), (5, []),
        (15, [])] =
      ([((10:ℚ), ([] : List (Option ℚ))), (20, []), (30, []), (5, []), (15, [])]).drop (3 + 1) :=
  ⟨by rfl, claim1_trim_reset.2.1 _ 3 (by rfl)⟩

/-- Claim C2 (confirmed): display rounding maps a missing value to missing
and a number `x` to `floor(x + 0.5)`, which is within a half of `x`
(half-up to the nearest integer); `23.5 ↦ 24`, `-23.5 ↦ -23`,
`23.49 ↦ 23`. -/
theorem claim2_round_half_up :
    round_half_up none = none ∧
    (∀ x : ℚ, round_half_up (some x) = some ((⌊x + 1 / 2⌋ : ℤ) : ℚ)) ∧
    (∀ x : ℚ, x - 1 / 2 < ((⌊x + 1 / 2⌋ : ℤ) : ℚ) ∧ ((⌊x + 1 / 2⌋ : ℤ) : ℚ) ≤ x + 1 / 2) ∧
    round_half_up (some 23.5) = some 24 ∧
    round_half_up (some (-23.5)) = some (-23) ∧
    round_half_up (some 23.49) = some 23 := by
  refine ⟨rfl, fun x => rfl, fun x => ⟨?_, ?_⟩, ?_, ?_, ?_⟩
  · have h := Int.sub_one_lt_floor (x + 1 / 2)
    linarith
  · exact Int.floor_le (x + 1 / 2)
  · norm_num [round_half_up]
  · norm_num [round_half_up]
  · norm_num [round_half_up]

/-- Claim C3 (confirmed): a validated ingest appends to the clean series a
row whose first cell is `ts_seconds = floor(ts_millis/1000 + 0.5)`;
`1499 ↦ 1` and `1500 ↦ 2`. -/
theorem claim3_ts_seconds (fs : FS) (p : Payload) (m : ℚ) (xs : List (Option ℚ))
    (hts : p.ts = some m) (htemps : p.temps = .seq xs) (hxs : xs ≠ []) :
    (∃ f, fsGet (ingest fs p).2 (fpath (p.device.getD "unknown") "clean") = some f ∧
      f.getLast? = some (dataRowOf m xs) ∧
      (dataRowOf m xs).head? = some (.num (some ((ts_seconds m : ℤ) : ℚ)))) ∧
    ts_seconds m = ⌊m / 1000 + 1 / 2⌋ ∧ ts_seconds 1499 = 1 ∧ ts_seconds 1500 = 2 := by
  refine ⟨?_, rfl, by norm_num [ts_seconds], by norm_num [ts_seconds]⟩
  rw [ingest_eq_of_valid fs p m xs hts htemps hxs]
  obtain ⟨f, hf, hlast⟩ := ingestWrite_clean_last fs (p.device.getD "unknown") p.names m xs p.raw
  exact ⟨f, hf, hlast, rfl⟩

/-- Witness for C3 at the concrete payload `{device: "d", ts: 1499,
temps: [1]}`. -/
theorem claim3_witness :
    ((⟨some "d", some 1499, none, .seq [some 1], .absent⟩ : Payload).ts = some 1499 ∧
      (⟨some "d", some 1499, none, .seq [some 1], .absent⟩ : Payload).temps = .seq [some 1] ∧
      ([some (1:ℚ)] ≠ [])) ∧
    (∃ f, fsGet (ingest [] (⟨some "d", some 1499, none, .seq [some 1], .absent⟩ : Payload)).2
        (fpath "d" "clean") = some f ∧
      f.getLast? = some (dataRowOf 1499 [some 1]) ∧
      (dataRowOf 1499 [some 1]).head? = some (.num (some ((ts_seconds 1499 : ℤ) : ℚ)))) :=
  ⟨⟨rfl, rfl, by simp⟩,
    (claim3_ts_seconds [] ⟨some "d", some 1499, none, .seq [some 1], .absent⟩ 1499 [some 1]
      rfl rfl (by simp)).1⟩

/-- Claim C5 (counterexample to the claim as stated): the legacy name is
produced by Python `str.replace`, which replaces every occurrence of
`".csv"` — not only the suffix.  For device id `"a.csv"` the clean series
path is `"data/a.csv.csv"`, and a mismatched rotation moves it to
`"data/a_legacy.csv_legacy.csv"`, not to the suffix replacement
`"data/a.csv_legacy.csv"`. -/
theorem claim5_counterexample :
    fpath "a.csv" "clean" = "data/a.csv.csv" ∧
    rotate_if_mismatch [("data/a.csv.csv", [[Cell.str "x"]])] "data/a.csv.csv" 3 =
      [("data/a_legacy.csv_legacy.csv", [[Cell.str "x"]])] ∧
    fsGet (rotate_if_mismatch [("data/a.csv.csv", [[Cell.str "x"]])] "data/a.csv.csv" 3)
      "data/a.csv_legacy.csv" = none ∧
    fsGet (rotate_if_mismatch [("data/a.csv.csv", [[Cell.str "x"]])] "data/a.csv.csv" 3)
      "data/a_legacy.csv_legacy.csv" = some [[Cell.str "x"]] := by
  refine ⟨by decide, by decide, by decide, by decide⟩

/-- Claim C5 (amended): the rotation check renames the existing file iff
the first line's column count (0 for a blank line, else commas + 1)
differs from the expected count; the rename target is the path with every
occurrence of `".csv"` replaced by `"_legacy.csv"` (this equals suffix
replacement when `".csv"` occurs only as the suffix); on a match the file
is left in place, and a rotation moves exactly the one rotated file. -/
theorem claim5_rotation (fs : FS) (path : String) (E : ℕ) :
    (fsGet fs path = none → rotate_if_mismatch fs path E = fs) ∧
    (∀ f, fsGet fs path = some f →
      (lineCols (f.headD []) = E → rotate_if_mismatch fs path E = fs) ∧
      (lineCols (f.headD []) ≠ E →
        rotate_if_mismatch fs path E = fsRename fs path (legacyOf path) ∧
        (legacyOf path ≠ path →
          fsGet (rotate_if_mismatch fs path E) (legacyOf path) = some f ∧
          fsGet (rotate_if_mismatch fs path E) path = none ∧
          ∀ q, q ≠ path → q ≠ legacyOf path →
            fsGet (rotate_if_mismatch fs path E) q = fsGet fs q))) := by
  refine ⟨rotate_of_none fs path E, ?_⟩
  intro f hf
  refine ⟨rotate_of_eq fs path E f hf, ?_⟩
  intro hne
  refine ⟨rotate_of_ne fs path E f hf hne, ?_⟩
  intro hlp
  refine ⟨?_, ?_, ?_⟩
  · rw [rotate_of_ne fs path E f hf hne, fsGet_rename_of_get fs path (legacyOf path) _ f hf,
      if_pos rfl]
  · rw [rotate_of_ne fs path E f hf hne, fsGet_rename_of_get fs path (legacyOf path) _ f hf,
      if_neg (fun hh => hlp hh.symm), if_pos rfl]
  · intro q hq1 hq2
    exact fsGet_rotate_other fs path E q hq1 hq2

/-- Witness for C5: a one-column file at `"data/w.csv"` against expected
count 3 is renamed to `"data/w_legacy.csv"`, which receives the file while
the original path is cleared. -/
theorem claim5_witness :
    (fsGet [("data/w.csv", [[Cell.str "x"]])] "data/w.csv" = some [[Cell.str "x"]] ∧
      lineCols (([[Cell.str "x"]] : File).headD []) ≠ 3 ∧
      legacyOf "data/w.csv" ≠ "data/w.csv") ∧
    (rotate_if_mismatch [("data/w.csv", [[Cell.str "x"]])] "data/w.csv" 3 =
        fsRename [("data/w.csv", [[Cell.str "x"]])] "data/w.csv" (legacyOf "data/w.csv") ∧
      (legacyOf "data/w.csv" ≠ "data/w.csv" →
        fsGet (rotate_if_mismatch [("data/w.csv", [[Cell.str "x"]])] "data/w.csv" 3)
          (legacyOf "data/w.csv") = some [[Cell.str "x"]] ∧
        fsGet (rotate_if_mismatch [("data/w.csv", [[Cell.str "x"]])] "data/w.csv" 3)
          "data/w.csv" = none ∧
        ∀ q, q ≠ "data/w.csv" → q ≠ legacyOf "data/w.csv" →
          fsGet (rotate_if_mismatch [("data/w.csv", [[Cell.str "x"]])] "data/w.csv" 3) q =
            fsGet [("data/w.csv", [[Cell.str "x"]])] q)) :=
  ⟨⟨by decide, by decide, by decide⟩,
    ((claim5_rotation [("data/w.csv", [[Cell.str "x"]])] "data/w.csv" 3).2
      [[Cell.str "x"]] (by decide)).2 (by decide)⟩

/-- Claim C6 (confirmed): the ingest endpoint answers 400 `bad payload`
exactly when `ts` is absent or `temps` is absent, not a sequence, or
empty; otherwise it answers 200 `{ok: true, n: len(temps)}`; an absent
`device` behaves as the device `"unknown"`. -/
theorem claim6_validation (fs : FS) (p : Payload) :
    ((ingest fs p).1 = .bad ↔
      p.ts = none ∨ p.temps = .absent ∨ p.temps = .notSeq ∨ p.temps = .seq []) ∧
    (∀ m xs, p.ts = some m → p.temps = .seq xs → xs ≠ [] →
      (ingest fs p).1 = .ok xs.length) ∧
    (p.device = none →
      ingest fs p = ingest fs (Payload.mk (some "unknown") p.ts p.names p.temps p.raw)) := by
  refine ⟨?_, ?_, ?_⟩
  · rcases ingest_cases fs p with ⟨heq, hcond⟩ | ⟨m, xs, hts, htemps, hxs, heq⟩
    · rw [heq]
      exact iff_of_true rfl hcond
    · rw [heq]
      constructor
      · intro h; exact absurd h (by simp)
      · intro hcond
        exfalso
        rcases hcond with h | h | h | h
        · rw [hts] at h; cases h
        · rw [htemps] at h; cases h
        · rw [htemps] at h; cases h
        · rw [htemps] at h
          injection h with h2
          exact hxs h2
  · intro m xs hts htemps hxs
    rw [ingest_eq_of_valid fs p m xs hts htemps hxs]
  · intro hdev
    unfold ingest
    rw [hdev]
    rfl

/-- Witness for C6 at two concrete payloads: one missing `ts` (rejected)
and one valid with two sensors (accepted with `n = 2`). -/
theorem claim6_witness :
    ((⟨some "d", none, none, .seq [some 1], .absent⟩ : Payload).ts = none ∧
      (ingest [] (⟨some "d", none, none, .seq [some 1], .absent⟩ : Payload)).1 = .bad) ∧
    ((⟨some "d", some 0, none, .seq [some 1, some 2], .absent⟩ : Payload).ts = some 0 ∧
      (ingest [] (⟨some "d", some 0, none, .seq [some 1, some 2], .absent⟩ : Payload)).1 =
        .ok 2) :=
  ⟨⟨rfl, (claim6_validation [] ⟨some "d", none, none, .seq [some 1], .absent⟩).1.mpr
      (Or.inl rfl)⟩,
    ⟨rfl, (claim6_validation [] ⟨some "d", some 0, none, .seq [some 1, some 2], .absent⟩).2.1
      0 [some 1, some 2] rfl rfl (by simp)⟩⟩

/-- Claim C7 (counterexample to the claim as stated): in the "otherwise"
case the column names are NOT all left unchanged.  With usable names
`["A","B"]` and mixed columns `["t0_C","Living_C"]` (so neither the "all
positional" nor the claimed first case applies in full), the code still
renames the matching column: the result is `["A_C","Living_C"]`, not
`["t0_C","Living_C"]`. -/
theorem claim7_counterexample :
    namesUsable (some ["A", "B"]) ["t0_C", "Living_C"] = true ∧
    (["t0_C", "Living_C"].all isTPat) = false ∧
    renamedCols (some ["A", "B"]) ["t0_C", "Living_C"] = ["A_C", "Living_C"] ∧
    renamedCols (some ["A", "B"]) ["t0_C", "Living_C"] ≠ ["t0_C", "Living_C"] := by
  refine ⟨by decide, by decide, by decide, ?_⟩
  intro h
  rw [show renamedCols (some ["A", "B"]) ["t0_C", "Living_C"] = ["A_C", "Living_C"]
    from by decide] at h
  simp at h

/-- Claim C7 (amended): when the sensor-name count equals the value-column
count (and names are nonempty), each value column matching `t<digits>_C`
is renamed to `{sensorNames[i]}_C` for its position `i` while non-matching
columns are left unchanged; else if all value columns match the pattern,
column `i` is renamed to `Sensor{i+1}_C`; else all names are left
unchanged. -/
theorem claim7_rename :
    (∀ ns valCols, namesUsable (some ns) valCols = true → valCols.Nodup →
      renamedCols (some ns) valCols =
        List.zipWith (fun c nm => if isTPat c then nm ++ "_C" else c) valCols ns) ∧
    (∀ (nameOv : Option (List String)) valCols, namesUsable nameOv valCols = false →
      valCols.all isTPat = true → valCols.Nodup →
      renamedCols nameOv valCols =
        (List.range valCols.length).map (fun i => "Sensor" ++ decRepr (i + 1) ++ "_C")) ∧
    (∀ (nameOv : Option (List String)) valCols, namesUsable nameOv valCols = false →
      valCols.all isTPat = false → renamedCols nameOv valCols = valCols) :=
  ⟨renamedCols_usable, renamedCols_sensor, renamedCols_id⟩

/-- Witness for C7: positional columns with no usable names are renamed to
`Sensor1_C, Sensor2_C`. -/
theorem claim7_witness :
    (namesUsable none ["t0_C", "t1_C"] = false ∧ (["t0_C", "t1_C"].all isTPat) = true ∧
      (["t0_C", "t1_C"] : List String).Nodup) ∧
    renamedCols none ["t0_C", "t1_C"] =
      (List.range (["t0_C", "t1_C"] : List String).length).map
        (fun i => "Sensor" ++ decRepr (i + 1) ++ "_C") :=
  ⟨⟨by decide, by decide, by decide⟩,
    claim7_rename.2.1 none ["t0_C", "t1_C"] (by decide) (by decide) (by decide)⟩

/-- Claim C8 (counterexample to the claim as stated): the re-zeroed time
axis does not always start at 0 for the first kept row.  For times
`[50,40,90]` and `mins = 1` every row is kept and the code subtracts the
minimum `40`, so the first kept row gets time `10`, not `0`. -/
theorem claim8_counterexample :
    windowKeep 1 [((50:ℚ), ([] : List (Option ℚ))), (40, []), (90, [])] =
      [((50:ℚ), ([] : List (Option ℚ))), (40, []), (90, [])] ∧
    rezeroTimes (windowKeep 1 [((50:ℚ), ([] : List (Option ℚ))), (40, []), (90, [])]) =
      [10, 0, 50] ∧
    (rezeroTimes (windowKeep 1 [((50:ℚ), ([] : List (Option ℚ))), (40, []),
      (90, [])])).head? ≠ some 0 := by
  have h1 : windowKeep 1 [((50:ℚ), ([] : List (Option ℚ))), (40, []), (90, [])] =
      [((50:ℚ), ([] : List (Option ℚ))), (40, []), (90, [])] := by
    norm_num [windowKeep, now_s, List.filter]
  have h2 : rezeroTimes [((50:ℚ), ([] : List (Option ℚ))), (40, []), (90, [])] =
      [10, 0, 50] := by
    norm_num [rezeroTimes, minTime, List.min?, List.foldl, min_def]
  refine ⟨h1, by rw [h1, h2], ?_⟩
  rw [h1, h2]
  norm_num

/-- Claim C8 (amended): with `now` the last row's time, exactly the rows
with `time ≥ now - mins*60` are kept (in order); re-zeroing subtracts the
minimum kept time, so whenever the kept time axis is nondecreasing (e.g.
after reset trimming) and `mins ≥ 0`, the first kept row has time 0; for
`mins = 1` and times `[0,30,61,90]` the kept rows are `[30,61,90]`
re-zeroed to `[0,31,60]`. -/
theorem claim8_windowing :
    (∀ (mins : ℚ) (rows : List DRow) (r : DRow),
      r ∈ windowKeep mins rows ↔ r ∈ rows ∧ now_s rows - mins * 60 ≤ r.1) ∧
    (∀ (mins : ℚ) (rows : List DRow), (windowKeep mins rows).Sublist rows) ∧
    (∀ (mins : ℚ) (rows : List DRow), 0 ≤ mins → rows ≠ [] →
      List.Chain' (· ≤ ·) (rows.map Prod.fst) →
      (rezeroTimes (windowKeep mins rows)).head? = some 0) ∧
    windowKeep 1 [((0:ℚ), ([] : List (Option ℚ))), (30, []), (61, []), (90, [])] =
      [((30:ℚ), ([] : List (Option ℚ))), (61, []), (90, [])] ∧
    rezeroTimes (windowKeep 1 [((0:ℚ), ([] : List (Option ℚ))), (30, []), (61, []),
      (90, [])]) = [0, 31, 60] := by
  have hwin : windowKeep 1 [((0:ℚ), ([] : List (Option ℚ))), (30, []), (61, []), (90, [])] =
      [((30:ℚ), ([] : List (Option ℚ))), (61, []), (90, [])] := by
    norm_num [windowKeep, now_s, List.filter]
  refine ⟨windowKeep_mem, windowKeep_sublist, ?_, hwin, ?_⟩
  · intro mins rows hm hne hchain
    have hkeptne : windowKeep mins rows ≠ [] := by
      intro hnil
      have := last_mem_windowKeep mins rows hm hne
      rw [hnil] at this
      exact absurd this (List.not_mem_nil _)
    exact rezero_head_zero (windowKeep mins rows) hkeptne (windowKeep_chain mins rows hchain)
  · rw [hwin]
    norm_num [rezeroTimes, minTime, List.min?, List.foldl, min_def]

/-- Witness for C8: on the nondecreasing concrete series `[0,30,61,90]`
with `mins = 1` the re-zeroed window starts at 0. -/
theorem claim8_witness :
    ((0:ℚ) ≤ 1 ∧ ([((0:ℚ), ([] : List (Option ℚ))), (30, []), (61, []), (90, [])] ≠ []) ∧
      List.Chain' (· ≤ ·) (([((0:ℚ), ([] : List (Option ℚ))), (30, []), (61, []),
        (90, [])]).map Prod.fst)) ∧
    (rezeroTimes (windowKeep 1 [((0:ℚ), ([] : List (Option ℚ))), (30, []), (61, []),
      (90, [])])).head? = some 0 :=
  ⟨⟨by norm_num, by simp, by norm_num [List.chain'_cons]⟩,
    claim8_windowing.2.2.1 1 [((0:ℚ), ([] : List (Option ℚ))), (30, []), (61, []), (90, [])]
      (by norm_num) (by simp) (by norm_num [List.chain'_cons])⟩

/-- Claim C4 (counterexample to the claim as stated): when the sensor count
changes, rotation archives the live files, and the row counts are NOT
"raw unchanged / clean +1".  After ingesting `{temps:[1], raw:[2]}` for
device `d` (raw data-row count 1, clean 1), ingesting `{temps:[1,2]}`
(raw absent) rotates both files: the raw series drops to 0 data rows and
the clean series stays at 1 instead of rising to 2. -/
theorem claim4_counterexample :
    (ingest [] (⟨some "d", some 0, none, .seq [some 1], .seq [some 2]⟩ : Payload)).1 =
      .ok 1 ∧
    (ingest (runIngests [⟨some "d", some 0, none, .seq [some 1], .seq [some 2]⟩])
      (⟨some "d", some 0, none, .seq [some 1, some 2], .absent⟩ : Payload)).1 = .ok 2 ∧
    dataRows (runIngests [⟨some "d", some 0, none, .seq [some 1], .seq [some 2]⟩])
      (fpath "d" "raw") = 1 ∧
    dataRows (runIngests [⟨some "d", some 0, none, .seq [some 1], .seq [some 2]⟩,
      ⟨some "d", some 0, none, .seq [some 1, some 2], .absent⟩]) (fpath "d" "raw") = 0 ∧
    dataRows (runIngests [⟨some "d", some 0, none, .seq [some 1], .seq [some 2]⟩])
      (fpath "d" "clean") = 1 ∧
    dataRows (runIngests [⟨some "d", some 0, none, .seq [some 1], .seq [some 2]⟩,
      ⟨some "d", some 0, none, .seq [some 1, some 2], .absent⟩]) (fpath "d" "clean") = 1 := by
  refine ⟨by decide, by decide, by decide, by decide, by decide, by decide⟩

/-- Claim C4 (amended): for every accepted payload, provided neither series
file is rotated by the call (its header, when the file exists, already
counts the expected `2 + N` columns), the clean data-row count rises by
one, and the raw data-row count rises by one iff the raw field is a
sequence of length `N` — otherwise it is unchanged. -/
theorem claim4_row_counts (fs : FS) (p : Payload) (m : ℚ) (xs : List (Option ℚ))
    (hts : p.ts = some m) (htemps : p.temps = .seq xs) (hxs : xs ≠ [])
    (hclean : noRotate fs (fpath (p.device.getD "unknown") "clean") (2 + xs.length))
    (hraw : noRotate fs (fpath (p.device.getD "unknown") "raw") (2 + xs.length)) :
    (dataRows (ingest fs p).2 (fpath (p.device.getD "unknown") "clean") =
      dataRows fs (fpath (p.device.getD "unknown") "clean") + 1) ∧
    (dataRows (ingest fs p).2 (fpath (p.device.getD "unknown") "raw") =
      dataRows fs (fpath (p.device.getD "unknown") "raw") + 1 ↔
      ∃ rs, p.raw = .seq rs ∧ rs.length = xs.length) ∧
    ((∀ rs, p.raw = .seq rs → rs.length ≠ xs.length) →
      dataRows (ingest fs p).2 (fpath (p.device.getD "unknown") "raw") =
        dataRows fs (fpath (p.device.getD "unknown") "raw")) := by
  rw [ingest_eq_of_valid fs p m xs hts htemps hxs]
  exact ingestWrite_dataRows fs (p.device.getD "unknown") p.names m xs p.raw hxs hclean hraw

/-- Witness for C4 on the empty store: the first accepted payload with one
sensor and no raw array creates one clean data row and no raw data row. -/
theorem claim4_witness :
    ((⟨some "d", some 0, none, .seq [some 1], .absent⟩ : Payload).ts = some 0 ∧
      (⟨some "d", some 0, none, .seq [some 1], .absent⟩ : Payload).temps = .seq [some 1] ∧
      ([some (1:ℚ)] ≠ [])) ∧
    (dataRows (ingest [] (⟨some "d", some 0, none, .seq [some 1], .absent⟩ : Payload)).2
        (fpath "d" "clean") = dataRows ([] : FS) (fpath "d" "clean") + 1) ∧
    ((∀ rs, (⟨some "d", some 0, none, .seq [some 1], .absent⟩ : Payload).raw = .seq rs →
        rs.length ≠ ([some (1:ℚ)]).length) →
      dataRows (ingest [] (⟨some "d", some 0, none, .seq [some 1], .absent⟩ : Payload)).2
        (fpath "d" "raw") = dataRows ([] : FS) (fpath "d" "raw")) :=
  ⟨⟨rfl, rfl, by simp⟩,
    (claim4_row_counts [] ⟨some "d", some 0, none, .seq [some 1], .absent⟩ 0 [some 1]
      rfl rfl (by simp) (fun f h => by simp [fsGet] at h) (fun f h => by simp [fsGet] at h)).1,
    (claim4_row_counts [] ⟨some "d", some 0, none, .seq [some 1], .absent⟩ 0 [some 1]
      rfl rfl (by simp) (fun f h => by simp [fsGet] at h) (fun f h => by simp [fsGet] at h)).2.2⟩

/-- Claim C9 (counterexample to the claim as stated): a sensor name
containing a comma breaks the invariant.  Ingesting `{names:["a,b"],
temps:[1]}` writes a 3-cell header whose serialized line counts 4 columns;
a following `{temps:[1,2]}` ingest then sees a matching count (4), skips
rotation, and appends a 4-cell row to the 3-cell-header file. -/
theorem claim9_counterexample :
    (ingest [] (⟨some "d", some 0, some ["a,b"], .seq [some 1], .absent⟩ : Payload)).1 =
      .ok 1 ∧
    (ingest (runIngests [⟨some "d", some 0, some ["a,b"], .seq [some 1], .absent⟩])
      (⟨some "d", some 0, none, .seq [some 1, some 2], .absent⟩ : Payload)).1 = .ok 2 ∧
    ((fsGet (runIngests [⟨some "d", some 0, some ["a,b"], .seq [some 1], .absent⟩,
        ⟨some "d", some 0, none, .seq [some 1, some 2], .absent⟩]) (fpath "d" "clean")).getD
      []).map List.length = [3, 3, 4] ∧
    widthsOk ((fsGet (runIngests [⟨some "d", some 0, some ["a,b"], .seq [some 1], .absent⟩,
        ⟨some "d", some 0, none, .seq [some 1, some 2], .absent⟩]) (fpath "d" "clean")).getD
      []) = false := by
  refine ⟨by decide, by decide, by decide, by decide⟩

/-- Claim C9 (amended): after every sequence of ingest calls starting from
an empty store, provided no supplied sensor name contains a comma or a
newline, every stored file satisfies the invariant: each row after the
header has exactly the header's column count. -/
theorem claim9_width_invariant (ps : List Payload) (hsafe : ∀ p ∈ ps, namesSafe p = true)
    (path : String) (f : File) (hget : fsGet (runIngests ps) path = some f) :
    widthsOk f = true := by
  obtain ⟨e, he, hef⟩ := fsGet_mem _ path f hget
  exact FileGood_widthsOk f (hef ▸ FSGood_runIngests ps hsafe e he)

/-- Witness for C9: one safe ingest produces a clean file whose single data
row has the header's width. -/
theorem claim9_witness :
    (∀ p ∈ [(⟨some "d", some 0, none, .seq [some 1], .absent⟩ : Payload)],
      namesSafe p = true) ∧
    widthsOk ((fsGet (runIngests [⟨some "d", some 0, none, .seq [some 1], .absent⟩])
      (fpath "d" "clean")).getD []) = true := by
  refine ⟨by decide, ?_⟩
  cases hh : fsGet (runIngests [(⟨some "d", some 0, none, .seq [some 1], .absent⟩ : Payload)])
      (fpath "d" "clean") with
  | none => exact absurd hh (by decide)
  | some f =>
    show widthsOk ((some f).getD []) = true
    exact claim9_width_invariant [⟨some "d", some 0, none, .seq [some 1], .absent⟩]
      (by decide) (fpath "d" "clean") f hh

/-- Claim C10 (confirmed): after any successful ingest for a device, the
device's raw CSV file exists (the raw header is created unconditionally)
and keeps existing across any further ingest calls, so
`GET /data/{device}/raw.csv` answers 200 with a nonempty file — never
404. -/
theorem claim10_raw_endpoint (ps1 : List Payload) (p : Payload) (ps2 : List Payload) (n : ℕ)
    (hok : (ingest (runIngests ps1) p).1 = .ok n) :
    ∃ f, get_raw_csv (runIngests (ps1 ++ p :: ps2)) (p.device.getD "unknown") = .okFile f ∧
      f ≠ [] ∧
      get_raw_csv (runIngests (ps1 ++ p :: ps2)) (p.device.getD "unknown") ≠ .notFound := by
  have hrun := runIngests_split ps1 p ps2
  rcases ingest_cases (runIngests ps1) p with ⟨heq, _⟩ | ⟨m, xs, hts, htemps, hxs, heq⟩
  · rw [heq] at hok
    exact absurd hok (by simp)
  · have hsome1 : (fsGet (ingest (runIngests ps1) p).2
        (fpath (p.device.getD "unknown") "raw")).isSome := by
      rw [heq]
      exact ingestWrite_raw_isSome _ _ _ _ _ _
    have hsome2 : (fsGet (runIngests (ps1 ++ p :: ps2))
        (fpath (p.device.getD "unknown") "raw")).isSome := by
      rw [hrun]
      exact pres_foldl ps2 _ _ hsome1
    obtain ⟨f, hf⟩ := Option.isSome_iff_exists.mp hsome2
    have hfne : f ≠ [] := by
      obtain ⟨e, he, hef⟩ := fsGet_mem _ _ f hf
      exact hef ▸ FilesNonempty_runIngests (ps1 ++ p :: ps2) e he
    refine ⟨f, ?_, hfne, ?_⟩
    · unfold get_raw_csv
      rw [hf]
    · unfold get_raw_csv
      rw [hf]
      simp

/-- Witness for C10: a single successful ingest without any raw array still
leaves `raw.csv` served with 200. -/
theorem claim10_witness :
    ((ingest (runIngests []) (⟨some "e", some 0, none, .seq [some 1], .absent⟩ : Payload)).1 =
      .ok 1) ∧
    ∃ f, get_raw_csv (runIngests ([] ++ (⟨some "e", some 0, none, .seq [some 1],
        .absent⟩ : Payload) :: [])) "e" = .okFile f ∧
      f ≠ [] ∧
      get_raw_csv (runIngests ([] ++ (⟨some "e", some 0, none, .seq [some 1],
        .absent⟩ : Payload) :: [])) "e" ≠ .notFound :=
  ⟨by decide, claim10_raw_endpoint [] ⟨some "e", some 0, none, .seq [some 1], .absent⟩ [] 1
    (by decide)⟩
